import Mathlib

set_option autoImplicit false
set_option linter.unusedSectionVars false

/-!
Shallow embedding of `src/hypergraph.py`.

Python dicts are modelled as insertion-ordered association lists with
unique keys (`List (κ × β)`); Python sets of edges as duplicate-free
lists (`List EdgeId`); Python exceptions (`KeyError`, `AttributeError`)
as an explicit error value returned next to the state reached at the
point of the raise.
-/

namespace HyperGraphModel

/-- The exceptions the code can raise: `KeyError` (missing dict key /
`set.remove` on an absent element) and `AttributeError` (access to a
nonexistent attribute, as in `HyperGraph.clear`). -/
inductive PyErr where
  | keyError
  | attributeError
deriving DecidableEq, Repr

deriving instance DecidableEq for Except

section Dict

variable {κ β : Type} [DecidableEq κ]

/-- `d[a]` as an option: first (unique) matching key. -/
def lookupD : List (κ × β) → κ → Option β
  | [], _ => none
  | (k, v) :: rest, a => if k = a then some v else lookupD rest a

/-- `a in d`. -/
def containsD (d : List (κ × β)) (a : κ) : Bool :=
  (lookupD d a).isSome

/-- `d[a] = b`: replace in place if the key is present, else append. -/
def assignD : List (κ × β) → κ → β → List (κ × β)
  | [], a, b => [(a, b)]
  | (k, v) :: rest, a, b =>
    if k = a then (k, b) :: rest else (k, v) :: assignD rest a b

/-- `del d[a]` (the key-present check is done by callers). -/
def eraseD : List (κ × β) → κ → List (κ × β)
  | [], _ => []
  | (k, v) :: rest, a => if k = a then rest else (k, v) :: eraseD rest a

/-- The keys of the dict, in insertion order. -/
def keysD (d : List (κ × β)) : List κ :=
  d.map Prod.fst

end Dict

section PySet

variable {α : Type} [DecidableEq α]

/-- `s.add(x)` on a Python set modelled as a duplicate-free list. -/
def setAdd (l : List α) (x : α) : List α :=
  if x ∈ l then l else l ++ [x]

/-- `s.remove(x)`: `none` models the `KeyError` raised when `x ∉ s`. -/
def setRemove (l : List α) (x : α) : Option (List α) :=
  if x ∈ l then some (l.erase x) else none

end PySet

/-! ### The data model: `Edge` identity and the `HyperGraph` state -/

abbrev Node := Nat

/-- Attribute values are opaque to the core; model them as `Nat`.
`EdgeData` / node-attribute dicts are string-keyed mappings. -/
abbrev Attrs := List (String × Nat)

/-- `d.update(other)`: assign every key/value pair of `other` into `d`
(existing keys keep their position, new keys are appended), as Python
`dict.update` / `MutableMapping.update` does. -/
def dictUpdate (d other : Attrs) : Attrs :=
  other.foldl (fun acc p => assignD acc p.1 p.2) d

/-- `Edge._nodes`: either an ordered member collection (a Python tuple:
duplicates allowed, order significant) or an unordered one (a Python
set, represented by the list of its elements in iteration order — a
real Python set never holds duplicates, which is the `Nodup` side
condition `NodeColl.OK`). `Edge.__eq__` compares `_nodes` with `==`,
so an ordered collection never equals an unordered one. -/
inductive NodeColl where
  | ordered (l : List Node)
  | unordered (s : List Node)
deriving DecidableEq

/-- Iteration order of the member collection (`for n in e`). -/
def NodeColl.members : NodeColl → List Node
  | .ordered l => l
  | .unordered s => s

/-- `len(e)` (`Edge.__len__` is `len(self._nodes)`). -/
def NodeColl.size : NodeColl → Nat
  | .ordered l => l.length
  | .unordered s => s.length

/-- The unordered representation is only faithful to a Python set when
it is duplicate-free. -/
def NodeColl.OK : NodeColl → Prop
  | .ordered _ => True
  | .unordered s => s.Nodup

/-- The identity of an `Edge`: its member collection plus the optional
`edgekey` discriminator. `Edge.__eq__`/`__hash__` compare exactly
these two fields. -/
structure EdgeId where
  nodes : NodeColl
  edgekey : Option Nat
deriving DecidableEq

def EdgeId.members (e : EdgeId) : List Node :=
  e.nodes.members

def EdgeId.size (e : EdgeId) : Nat :=
  e.nodes.size

/-- The `HyperGraph` state: the three dicts `node_data`,
`node_incidence`, `edge_data`. Incidence sets store edge identities
(Python stores `Edge` objects; its sets compare them by `__eq__`). -/
structure HG where
  node_data : List (Node × Attrs)
  node_incidence : List (Node × List EdgeId)
  edge_data : List (EdgeId × Attrs)
deriving DecidableEq

def emptyHG : HG := ⟨[], [], []⟩

/-! ### Mutating methods -/

/-- `HyperGraph.add_node`. -/
def add_node (g : HG) (node : Node) (kwds : Attrs) : HG × Bool :=
  match lookupD g.node_data node with
  | some d =>
    ({ g with node_data := assignD g.node_data node (dictUpdate d kwds) }, false)
  | none =>
    ({ g with
        node_data := g.node_data ++ [(node, kwds)],
        node_incidence := g.node_incidence ++ [(node, [])] }, true)

/-- The argument of `add_edge`: raw members (with the `edgekey` kwarg
popped out of `kwds`) or a pre-built `Edge` carrying its own data. -/
inductive EdgeArg where
  | raw (nodes : NodeColl) (edgekey : Option Nat) (kwds : Attrs)
  | pre (e : EdgeId) (edata : Attrs) (kwds : Attrs)

/-- What `add_edge` reports: `existing` is Python's `False`, `created`
the freshly inserted edge; `error` marks a raised exception. -/
inductive AddRes where
  | error (err : PyErr)
  | existing
  | created (e : EdgeId)
deriving DecidableEq

/-- The member loop of `add_edge` for a new edge: create missing member
nodes, add `e` to each existing member's incidence set. The `KeyError`
branch (`self.node_incidence[n]` missing for a node present in
`node_data`) is unreachable on graphs satisfying the invariants. -/
def addEdgeMembers (e : EdgeId) : HG → List Node → HG × Option PyErr
  | g, [] => (g, none)
  | g, n :: rest =>
    if containsD g.node_data n then
      match lookupD g.node_incidence n with
      | some L =>
        addEdgeMembers e
          { g with node_incidence := assignD g.node_incidence n (setAdd L e) } rest
      | none => (g, some .keyError)
    else
      addEdgeMembers e
        { g with
            node_data := g.node_data ++ [(n, [])],
            node_incidence := g.node_incidence ++ [(n, [e])] } rest

/-- `HyperGraph.add_edge`. The resolved identity is `(nodes, edgekey)`;
the candidate stored data is `kwds` for a raw call and
`e.data.update(kwds)` for a pre-built edge; on an identity collision
the existing data is updated with `kwds` and `False` is reported. -/
def add_edge (g : HG) (a : EdgeArg) : HG × AddRes :=
  let e : EdgeId :=
    match a with
    | .raw nb ek _ => ⟨nb, ek⟩
    | .pre e0 _ _ => e0
  let edata : Attrs :=
    match a with
    | .raw _ _ kw => kw
    | .pre _ d kw => dictUpdate d kw
  let kwds : Attrs :=
    match a with
    | .raw _ _ kw => kw
    | .pre _ _ kw => kw
  match lookupD g.edge_data e with
  | some d =>
    ({ g with edge_data := assignD g.edge_data e (dictUpdate d kwds) }, .existing)
  | none =>
    match addEdgeMembers e
        { g with edge_data := g.edge_data ++ [(e, edata)] } e.members with
    | (g', none) => (g', .created e)
    | (g', some err) => (g', .error err)

/-- The argument of `remove_edge` / `has_edge`. -/
inductive EdgeRef where
  | raw (nodes : NodeColl)
  | pre (e : EdgeId)

/-- Resolve `nbunch_or_edge` to an identity: raw members get a `None`
discriminator (`Edge(nbunch, None)`). -/
def resolveRef : EdgeRef → EdgeId
  | .raw nb => ⟨nb, none⟩
  | .pre e => e

/-- The member loop of `remove_edge` (and the trailing loop of
`remove_node`'s edge rewrite): `self.node_incidence[n].remove(target)`
for each `n`, raising `KeyError` when the entry or the element is
missing; the state reached at the raise is returned alongside. -/
def removeIncidence (target : EdgeId) : HG → List Node → HG × Option PyErr
  | g, [] => (g, none)
  | g, n :: rest =>
    match lookupD g.node_incidence n with
    | none => (g, some .keyError)
    | some L =>
      match setRemove L target with
      | none => (g, some .keyError)
      | some L' =>
        removeIncidence target
          { g with node_incidence := assignD g.node_incidence n L' } rest

/-- `HyperGraph.remove_edge`: `del self.edge_data[e]` raises `KeyError`
before any mutation when the identity is absent; otherwise the edge is
dropped from `edge_data` and from each member's incidence set. -/
def remove_edge (g : HG) (r : EdgeRef) : HG × Option PyErr :=
  let e := resolveRef r
  if containsD g.edge_data e then
    removeIncidence e { g with edge_data := eraseD g.edge_data e } e.members
  else
    (g, some .keyError)

/-- The replacement edge built by `remove_node`: the members of `e`
with `node` excluded (every occurrence), collected by
`nbunch = (n for n in e if n != node)` into a set (`set(nbunch)`) or a
tuple (`tuple(nbunch)`) matching `e`'s kind, with `e`'s discriminator. -/
def rewriteEdge (e : EdgeId) (node : Node) : EdgeId :=
  match e.nodes with
  | .ordered l => ⟨.ordered (l.filter (fun n => n ≠ node)), e.edgekey⟩
  | .unordered s => ⟨.unordered (s.filter (fun n => n ≠ node)), e.edgekey⟩

/-- The `self.node_incidence[nbr].add(newe)` loop of `remove_node`. -/
def addIncidence (target : EdgeId) : HG → List Node → HG × Option PyErr
  | g, [] => (g, none)
  | g, n :: rest =>
    match lookupD g.node_incidence n with
    | none => (g, some .keyError)
    | some L =>
      addIncidence target
        { g with node_incidence := assignD g.node_incidence n (setAdd L target) } rest

/-- One iteration of `remove_node`'s edge loop: delete `e` from
`edge_data`, build the replacement `newe` (whose data is a copy of
`e.data`), reinsert it when it keeps more than one member, then remove
`e` from the incidence set of every member of `newe`. -/
def removeNodeEdge (node : Node) (g : HG) (e : EdgeId) : HG × Option PyErr :=
  match lookupD g.edge_data e with
  | none => (g, some .keyError)
  | some edata =>
    let g1 : HG := { g with edge_data := eraseD g.edge_data e }
    let newe := rewriteEdge e node
    let step2 : HG × Option PyErr :=
      if 1 < newe.size then
        addIncidence newe
          { g1 with edge_data := assignD g1.edge_data newe edata } newe.members
      else (g1, none)
    match step2 with
    | (g2, none) => removeIncidence e g2 newe.members
    | (g2, some err) => (g2, some err)

/-- The `for e in list(self.node_incidence[node])` loop. -/
def removeNodeLoop (node : Node) : HG → List EdgeId → HG × Option PyErr
  | g, [] => (g, none)
  | g, e :: rest =>
    match removeNodeEdge node g e with
    | (g', none) => removeNodeLoop node g' rest
    | (g', some err) => (g', some err)

/-- `HyperGraph.remove_node`. -/
def remove_node (g : HG) (node : Node) : HG × Option PyErr :=
  if containsD g.node_data node then
    let g1 : HG := { g with node_data := eraseD g.node_data node }
    match lookupD g1.node_incidence node with
    | none => (g1, some .keyError)
    | some L =>
      match removeNodeLoop node g1 L with
      | (g2, none) =>
        ({ g2 with node_incidence := eraseD g2.node_incidence node }, none)
      | (g2, some err) => (g2, some err)
  else (g, some .keyError)

/-! ### Query methods -/

/-- `HyperGraph.has_edge`: resolved via the same identity rule as
removal; a pure membership test on `edge_data`. -/
def has_edge (g : HG) (r : EdgeRef) : Bool :=
  containsD g.edge_data (resolveRef r)

/-- The items yielded for one incident edge by `neighbors` /
`NeighborMap.__iter__`: the node itself for a unary edge, every other
member (with multiplicity) otherwise. -/
def neighborsOfEdge (node : Node) (e : EdgeId) : List Node :=
  if e.size = 1 then [node] else e.members.filter (fun n => n ≠ node)

/-- The full sequence produced by consuming the `neighbors` generator
body: `KeyError` when `node` is missing from the incidence map. -/
def neighborsSeq (g : HG) (node : Node) : Except PyErr (List Node) :=
  match lookupD g.node_incidence node with
  | none => .error .keyError
  | some L => .ok (L.flatMap (neighborsOfEdge node))

/-- A Python generator object, as returned by a call to the generator
function `HyperGraph.neighbors`: the call executes none of the body,
so the call itself never raises. -/
structure NeighborsGen where
  graph : HG
  node : Node
deriving DecidableEq

/-- `HyperGraph.neighbors(node)`: builds the generator object; total. -/
def neighbors (g : HG) (node : Node) : NeighborsGen :=
  ⟨g, node⟩

/-- Consuming the generator runs its body. -/
def NeighborsGen.consume (gen : NeighborsGen) : Except PyErr (List Node) :=
  neighborsSeq gen.graph gen.node

/-- A `NeighborMap` view (`graph[node]`): a handle on the graph and the
bound node, holding no other state. -/
structure NeighborMap where
  graph : HG
  node : Node

/-- `NeighborMap.__iter__`, fully consumed (its body is identical to
the `neighbors` generator's). -/
def NeighborMap.iterSeq (m : NeighborMap) : Except PyErr (List Node) :=
  match lookupD m.graph.node_incidence m.node with
  | none => .error .keyError
  | some L => .ok (L.flatMap (neighborsOfEdge m.node))

/-- `NeighborMap.__len__`: `sum(len(e)-1 if len(e)>1 else 1 for e in
self._graph.node_incidence[self._node])`. -/
def NeighborMap.len (m : NeighborMap) : Except PyErr Nat :=
  match lookupD m.graph.node_incidence m.node with
  | none => .error .keyError
  | some L => .ok (L.map (fun e => if 1 < e.size then e.size - 1 else 1)).sum

/-- `HyperGraph.clear`: the three maps are emptied in place, then
`self.graph.clear()` raises `AttributeError`, because
`HyperGraph.__init__` never defines a `graph` attribute. -/
def clear (g : HG) : HG × Option PyErr :=
  (⟨[], [], []⟩, some .attributeError)

/-- `HyperGraph.order`. -/
def order (g : HG) : Nat :=
  g.node_data.length

/-- `HyperGraph.size`. -/
def size (g : HG) : Nat :=
  g.edge_data.length

/-! ### Well-formedness and the spec invariants -/

/-- `e in node_incidence[n]`, as a computable test (false when `n` has
no incidence entry). -/
def incContains (g : HG) (n : Node) (e : EdgeId) : Bool :=
  match lookupD g.node_incidence n with
  | some L => e ∈ L
  | none => false

/-- Structural well-formedness that Python's dict/set types guarantee
by construction: unique dict keys, duplicate-free incidence sets. -/
structure WF (g : HG) : Prop where
  nd_nodup : (keysD g.node_data).Nodup
  ni_nodup : (keysD g.node_incidence).Nodup
  ed_nodup : (keysD g.edge_data).Nodup
  inc_nodup : ∀ p ∈ g.node_incidence, (Prod.snd p).Nodup

/-- The spec's HyperGraph invariants 1-3: equal node key sets, every
edge registered in each member's incidence set, every incidence entry
backed by a registered edge containing the node. All quantifiers are
bounded by the stored entries, so the invariant is checkable on a
concrete graph. -/
structure Inv (g : HG) : Prop where
  keys_sub_ni : keysD g.node_data ⊆ keysD g.node_incidence
  keys_sub_nd : keysD g.node_incidence ⊆ keysD g.node_data
  edge_mem : ∀ p ∈ g.edge_data, ∀ n ∈ EdgeId.members (Prod.fst p),
    incContains g n (Prod.fst p) = true
  inc_mem : ∀ p ∈ g.node_incidence, ∀ e ∈ Prod.snd p,
    e ∈ keysD g.edge_data ∧ Prod.fst p ∈ EdgeId.members e

/-- The invariant carried through `remove_node`'s edge loop, relating
the current state `s` to the original graph `g0`: `L0` is the snapshot
`list(node_incidence[node])`, split into the processed prefix `P` and
the remaining suffix `R`. -/
structure NodeLoopInv (g0 : HG) (node : Node) (L0 P R : List EdgeId)
    (s : HG) : Prop where
  split : L0 = P ++ R
  nd : s.node_data = eraseD g0.node_data node
  ni_keys : keysD s.node_incidence = keysD g0.node_incidence
  ni_nodup : ∀ p ∈ s.node_incidence, (Prod.snd p).Nodup
  ed_nodup : (keysD s.edge_data).Nodup
  rem_data : ∀ e ∈ R, lookupD s.edge_data e = lookupD g0.edge_data e
  rem_inc : ∀ e ∈ R, ∀ nbr ∈ EdgeId.members (rewriteEdge e node),
    incContains s nbr e = true
  node_only_rem : ∀ id ∈ keysD s.edge_data, node ∈ EdgeId.members id →
    id ∈ R
  done_ed : ∀ e ∈ P, e ∉ keysD s.edge_data
  done_inc : ∀ e ∈ P, ∀ x, x ≠ node → incContains s x e = false
  big_present : ∀ e ∈ P, 1 < (rewriteEdge e node).size →
    rewriteEdge e node ∈ keysD s.edge_data
  ed_bound : ∀ id ∈ keysD s.edge_data, id ∈ keysD g0.edge_data ∨
    ∃ e ∈ P, 1 < (rewriteEdge e node).size ∧ id = rewriteEdge e node
  inc_bound : ∀ p ∈ s.node_incidence, ∀ id ∈ Prod.snd p,
    incContains g0 (Prod.fst p) id = true ∨
      ∃ e ∈ P, 1 < (rewriteEdge e node).size ∧ id = rewriteEdge e node
  edge_mem_s : ∀ id ∈ keysD s.edge_data, ∀ n ∈ EdgeId.members id,
    n ≠ node → incContains s n id = true
  inc_mem_s : ∀ p ∈ s.node_incidence, ∀ id ∈ Prod.snd p,
    Prod.fst p ∈ EdgeId.members id ∧
      (Prod.fst p ≠ node → id ∈ keysD s.edge_data)
  data_pres : ∀ e ∈ P, 1 < (rewriteEdge e node).size →
    (∀ e2 ∈ L0, rewriteEdge e2 node = rewriteEdge e node → e2 = e) →
    lookupD s.edge_data (rewriteEdge e node) = lookupD g0.edge_data e

/-! ### Concrete graphs used to evaluate the claims -/

/-- `add_edge((1,1,2))` on a fresh graph: an ordered edge in which node
1 occurs twice. -/
def dupMemberGraph : HG :=
  (add_edge emptyHG (.raw (.ordered [1, 1, 2]) none [])).1

/-- `add_edge((1,1))` on a fresh graph. -/
def dupPairGraph : HG :=
  (add_edge emptyHG (.raw (.ordered [1, 1]) none [])).1

/-- `add_edge((1,2,2))` on a fresh graph. -/
def dupTailGraph : HG :=
  (add_edge emptyHG (.raw (.ordered [1, 2, 2]) none [])).1

/-- `add_edge({2,3}, a=1)` then `add_edge({1,2,3}, b=2)` on a fresh
graph: removing node 1 rewrites the second edge onto the identity of
the first. -/
def mergeGraph : HG :=
  (add_edge (add_edge emptyHG (.raw (.unordered [2, 3]) none [("a", 1)])).1
    (.raw (.unordered [1, 2, 3]) none [("b", 2)])).1

/-- The two hyperedges of the demo script:
`add_edge((11,12,13,14,15,16)); add_edge((14,15,16,17,18))`. -/
def hyperDemoGraph : HG :=
  (add_edge (add_edge emptyHG
      (.raw (.ordered [11, 12, 13, 14, 15, 16]) none [])).1
    (.raw (.ordered [14, 15, 16, 17, 18]) none [])).1

/-- `add_edge((1,2), edgekey=7)` on a fresh graph: an edge stored with
a non-absent discriminator. -/
def keyedGraph : HG :=
  (add_edge emptyHG (.raw (.ordered [1, 2]) (some 7) [])).1

/-- `add_edge((2,3))` on a fresh graph. -/
def pairGraph : HG :=
  (add_edge emptyHG (.raw (.ordered [2, 3]) none [])).1

/-! ### The reference model: object identity for attribute dicts

`copy()` replays `add_node`/`add_edge`; whether the clone shares
attribute storage with the original is a question about Python object
references, invisible to the value-level `HG` model. Here the mutable
`EdgeData`/node-attribute dicts live in a heap of cells addressed by
`Ref`, and the graph maps store references into that heap. -/

/-- A reference to a mutable attribute dict. -/
abbrev Ref := Nat

/-- The store of attribute-dict objects; allocation appends. -/
abbrev Heap := List Attrs

/-- Dereference (out-of-range reads, which never occur on well-formed
states, yield the empty dict). -/
def readCell (h : Heap) (r : Ref) : Attrs :=
  h.getD r []

/-- Overwrite the cell `r` (out-of-range writes are dropped, matching
`List.set`; they never occur on well-formed states). -/
def writeCell (h : Heap) (r : Ref) (a : Attrs) : Heap :=
  h.set r a

/-- The `HyperGraph` state at the reference level: `node_data` and
`edge_data` store references to attribute cells. An invariant of the
source (`self.edge_data[e] = e.data` on every insertion) is that the
`Edge` object stored as a key holds the same `EdgeData` object as the
stored value, so one reference per edge entry suffices. -/
structure RGraph where
  node_data : List (Node × Ref)
  node_incidence : List (Node × List EdgeId)
  edge_data : List (EdgeId × Ref)
deriving DecidableEq

/-- An `Edge` object as passed to `add_edge`: its identity plus the
reference to its `data` dict. -/
structure EdgeObj where
  id : EdgeId
  dataRef : Ref
deriving DecidableEq

/-- `add_node` at the reference level: on a repeat node the stored
cell is updated in place; on a new node the caller's `**kwds` copy is
allocated as a fresh cell. -/
def add_nodeR (h : Heap) (g : RGraph) (node : Node) (kwds : Attrs) :
    Heap × RGraph :=
  match lookupD g.node_data node with
  | some r => (writeCell h r (dictUpdate (readCell h r) kwds), g)
  | none =>
    (h ++ [kwds],
     { g with node_data := g.node_data ++ [(node, h.length)], node_incidence := g.node_incidence ++ [(node, [])] })

/-- The member loop of `add_edge` at the reference level: missing
member nodes get a fresh empty attribute cell; the `KeyError` branch
mirrors `addEdgeMembers`. -/
def addEdgeMembersR (e : EdgeId) :
    Heap × RGraph → List Node → (Heap × RGraph) × Option PyErr
  | (h, g), [] => ((h, g), none)
  | (h, g), n :: rest =>
    if containsD g.node_data n then
      match lookupD g.node_incidence n with
      | some L =>
        addEdgeMembersR e
          (h, { g with node_incidence := assignD g.node_incidence n (setAdd L e) }) rest
      | none => ((h, g), some .keyError)
    else
      addEdgeMembersR e
        (h ++ [[]],
         { g with node_data := g.node_data ++ [(n, h.length)], node_incidence := g.node_incidence ++ [(n, [e])] })
        rest

/-- `add_edge(nbunch, **kwds)` with raw members at the reference
level: a transient `Edge` (with a fresh `EdgeData` cell holding
`kwds`) is built first; on an identity collision the stored cell is
updated, otherwise the fresh cell is registered. -/
def add_edgeR_raw (h : Heap) (g : RGraph) (nb : NodeColl)
    (ek : Option Nat) (kwds : Attrs) : (Heap × RGraph) × Option PyErr :=
  match lookupD g.edge_data (⟨nb, ek⟩ : EdgeId) with
  | some r =>
    ((writeCell (h ++ [kwds]) r (dictUpdate (readCell (h ++ [kwds]) r) kwds), g), none)
  | none =>
    addEdgeMembersR ⟨nb, ek⟩
      (h ++ [kwds], { g with edge_data := g.edge_data ++ [(⟨nb, ek⟩, h.length)] })
      (EdgeId.members (⟨nb, ek⟩ : EdgeId))

/-- `add_edge(e, **kwds)` with a pre-built `Edge` at the reference
level: `e.data.update(kwds)` first mutates the passed object's cell;
on an identity collision the stored cell is then updated; otherwise
the edge is registered with the passed object's own cell — the
reference is stored, not a copy. -/
def add_edgeR_pre (h : Heap) (g : RGraph) (eo : EdgeObj) (kwds : Attrs) :
    (Heap × RGraph) × Option PyErr :=
  let h1 := writeCell h eo.dataRef (dictUpdate (readCell h eo.dataRef) kwds)
  match lookupD g.edge_data eo.id with
  | some r =>
    ((writeCell h1 r (dictUpdate (readCell h1 r) kwds), g), none)
  | none =>
    addEdgeMembersR eo.id
      (h1, { g with edge_data := g.edge_data ++ [(eo.id, eo.dataRef)] })
      (EdgeId.members eo.id)

/-- `G.edge_data[e][key] = value` through a graph handle: writes the
stored cell (`EdgeData.__setitem__`). -/
def setEdgeAttr (h : Heap) (g : RGraph) (e : EdgeId) (k : String)
    (v : Nat) : Heap × Option PyErr :=
  match lookupD g.edge_data e with
  | none => (h, some .keyError)
  | some r => (writeCell h r (assignD (readCell h r) k v), none)

/-- `G.edge_data[e][key]` through a graph handle. -/
def getEdgeAttr (h : Heap) (g : RGraph) (e : EdgeId) (k : String) :
    Option Nat :=
  match lookupD g.edge_data e with
  | none => none
  | some r => lookupD (readCell h r) k

/-- The first replay loop of `copy`:
`for n, ndata in self.nodes(data=True): G.add_node(n, **ndata)` — the
`**ndata` unpacking copies the cell's content at call time. -/
def copyNodes (h : Heap) (g2 : RGraph) :
    List (Node × Ref) → Heap × RGraph
  | [] => (h, g2)
  | (n, r) :: rest =>
    let p := add_nodeR h g2 n (readCell h r)
    copyNodes p.1 p.2 rest

/-- The second replay loop of `copy`:
`for e, edata in self.edges(data=True): G.add_edge(e, **edata)` — the
iterated keys are the original `Edge` objects, whose `data` is the
stored cell, so the passed `EdgeObj` carries the stored reference. -/
def copyEdges (h : Heap) (g2 : RGraph) :
    List (EdgeId × Ref) → (Heap × RGraph) × Option PyErr
  | [] => ((h, g2), none)
  | (e, r) :: rest =>
    match add_edgeR_pre h g2 ⟨e, r⟩ (readCell h r) with
    | (s, none) => copyEdges s.1 s.2 rest
    | (s, some err) => (s, some err)

/-- `HyperGraph.copy` at the reference level: replay onto a fresh
empty instance. -/
def copyR (h : Heap) (g : RGraph) : (Heap × RGraph) × Option PyErr :=
  match copyNodes h ⟨[], [], []⟩ g.node_data with
  | (h1, g2) => copyEdges h1 g2 g.edge_data

/-- Reference-level well-formedness: unique keys, references in
bounds, duplicate-free attribute keys in every edge cell, members
registered as nodes. -/
structure WFr (h : Heap) (g : RGraph) : Prop where
  nd_nodup : (keysD g.node_data).Nodup
  ed_nodup : (keysD g.edge_data).Nodup
  nd_refs : ∀ p ∈ g.node_data, Prod.snd p < h.length
  ed_refs : ∀ p ∈ g.edge_data, Prod.snd p < h.length
  ed_attrs : ∀ p ∈ g.edge_data, (keysD (readCell h (Prod.snd p))).Nodup
  members_nodes : ∀ p ∈ g.edge_data, ∀ n ∈ EdgeId.members (Prod.fst p),
    n ∈ keysD g.node_data

/-- `add_edge((1,2), a=1)` on a fresh instance, at the reference
level. -/
def c6Orig : Heap × RGraph :=
  (add_edgeR_raw [] ⟨[], [], []⟩ (.ordered [1, 2]) none [("a", 1)]).1

/-- Its copy. -/
def c6Copy : (Heap × RGraph) × Option PyErr :=
  copyR c6Orig.1 c6Orig.2

/-- Setting `a = 99` on edge `(1,2)` through the copy. -/
def c6Mut : Heap × Option PyErr :=
  setEdgeAttr (Prod.fst c6Copy.1) (Prod.snd c6Copy.1)
    ⟨.ordered [1, 2], none⟩ "a" 99

/-! ### Basic lemmas about the dict and set primitives -/

section DictLemmas

variable {κ β : Type} [DecidableEq κ]

@[simp] theorem lookupD_nil (a : κ) : lookupD ([] : List (κ × β)) a = none := rfl

@[simp] theorem lookupD_cons (k : κ) (v : β) (rest : List (κ × β)) (a : κ) :
    lookupD ((k, v) :: rest) a = if k = a then some v else lookupD rest a := rfl

@[simp] theorem keysD_nil : keysD ([] : List (κ × β)) = [] := rfl

@[simp] theorem keysD_cons (p : κ × β) (rest : List (κ × β)) :
    keysD (p :: rest) = p.1 :: keysD rest := rfl

theorem containsD_iff_mem_keysD (d : List (κ × β)) (a : κ) :
    containsD d a = true ↔ a ∈ keysD d := by
  induction d with
  | nil => simp [containsD]
  | cons p rest ih =>
    obtain ⟨k, v⟩ := p
    by_cases h : k = a
    · subst h
      simp [containsD]
    · have hc : containsD ((k, v) :: rest) a = containsD rest a := by
        simp [containsD, h]
      rw [hc, ih, keysD_cons, List.mem_cons]
      constructor
      · exact Or.inr
      · rintro (rfl | h')
        · exact absurd rfl h
        · exact h'

theorem lookupD_isSome_iff_mem_keysD (d : List (κ × β)) (a : κ) :
    (lookupD d a).isSome = true ↔ a ∈ keysD d :=
  containsD_iff_mem_keysD d a

theorem lookupD_eq_none_iff (d : List (κ × β)) (a : κ) :
    lookupD d a = none ↔ a ∉ keysD d := by
  rw [← lookupD_isSome_iff_mem_keysD]
  cases lookupD d a <;> simp

@[simp] theorem lookupD_assignD_self (d : List (κ × β)) (a : κ) (b : β) :
    lookupD (assignD d a b) a = some b := by
  induction d with
  | nil => simp [assignD]
  | cons p rest ih =>
    obtain ⟨k, v⟩ := p
    by_cases h : k = a <;> simp [assignD, h, ih]

theorem lookupD_assignD_ne (d : List (κ × β)) (a : κ) (b : β) (a' : κ)
    (h : a ≠ a') : lookupD (assignD d a b) a' = lookupD d a' := by
  induction d with
  | nil => simp [assignD, h]
  | cons p rest ih =>
    obtain ⟨k, v⟩ := p
    by_cases hk : k = a
    · subst hk
      simp [assignD, h]
    · simp only [assignD, if_neg hk, lookupD_cons]
      by_cases hk' : k = a'
      · simp [hk']
      · simp [hk', ih]

theorem keysD_assignD_of_contains (d : List (κ × β)) (a : κ) (b : β)
    (h : containsD d a = true) : keysD (assignD d a b) = keysD d := by
  induction d with
  | nil => simp [containsD] at h
  | cons p rest ih =>
    obtain ⟨k, v⟩ := p
    by_cases hk : k = a
    · simp [assignD, hk]
    · have h' : containsD rest a = true := by
        simpa [containsD, hk] using h
      simp only [assignD, if_neg hk, keysD_cons, ih h']

theorem keysD_assignD_of_not_contains (d : List (κ × β)) (a : κ) (b : β)
    (h : containsD d a = false) : keysD (assignD d a b) = keysD d ++ [a] := by
  induction d with
  | nil => simp [assignD]
  | cons p rest ih =>
    obtain ⟨k, v⟩ := p
    by_cases hk : k = a
    · simp [containsD, hk] at h
    · have h' : containsD rest a = false := by
        simpa [containsD, hk] using h
      simp only [assignD, if_neg hk, keysD_cons, ih h', List.cons_append]

theorem mem_keysD_assignD (d : List (κ × β)) (a : κ) (b : β) (a' : κ) :
    a' ∈ keysD (assignD d a b) ↔ a' ∈ keysD d ∨ a' = a := by
  rcases h : containsD d a with _ | _
  · rw [keysD_assignD_of_not_contains d a b h]
    simp
  · rw [keysD_assignD_of_contains d a b h]
    rw [containsD_iff_mem_keysD] at h
    constructor
    · exact Or.inl
    · rintro (h' | rfl)
      · exact h'
      · exact h

theorem lookupD_eraseD_ne (d : List (κ × β)) (a a' : κ) (h : a ≠ a') :
    lookupD (eraseD d a) a' = lookupD d a' := by
  induction d with
  | nil => simp [eraseD]
  | cons p rest ih =>
    obtain ⟨k, v⟩ := p
    by_cases hk : k = a
    · subst hk
      simp [eraseD, h]
    · simp only [eraseD, if_neg hk, lookupD_cons]
      by_cases hk' : k = a'
      · simp [hk']
      · simp [hk', ih]

theorem keysD_eraseD_sublist (d : List (κ × β)) (a : κ) :
    (keysD (eraseD d a)).Sublist (keysD d) := by
  induction d with
  | nil => simp [eraseD]
  | cons p rest ih =>
    obtain ⟨k, v⟩ := p
    by_cases hk : k = a
    · simp only [eraseD, if_pos hk, keysD_cons]
      exact (List.Sublist.refl _).cons k
    · simpa [eraseD, hk] using ih.cons₂ k

theorem lookupD_eraseD_self (d : List (κ × β)) (a : κ)
    (hd : (keysD d).Nodup) : lookupD (eraseD d a) a = none := by
  induction d with
  | nil => simp [eraseD]
  | cons p rest ih =>
    obtain ⟨k, v⟩ := p
    rw [keysD_cons, List.nodup_cons] at hd
    by_cases hk : k = a
    · subst hk
      rw [eraseD, if_pos rfl, lookupD_eq_none_iff]
      exact hd.1
    · simp [eraseD, hk, ih hd.2]

theorem not_mem_keysD_eraseD (d : List (κ × β)) (a : κ)
    (hd : (keysD d).Nodup) : a ∉ keysD (eraseD d a) := by
  rw [← containsD_iff_mem_keysD]
  simp [containsD, lookupD_eraseD_self d a hd]

theorem mem_keysD_eraseD_of_ne (d : List (κ × β)) (a a' : κ) (h : a ≠ a') :
    a' ∈ keysD (eraseD d a) ↔ a' ∈ keysD d := by
  rw [← containsD_iff_mem_keysD, ← containsD_iff_mem_keysD]
  simp [containsD, lookupD_eraseD_ne d a a' h]

theorem nodup_keysD_assignD (d : List (κ × β)) (a : κ) (b : β)
    (hd : (keysD d).Nodup) : (keysD (assignD d a b)).Nodup := by
  rcases h : containsD d a with _ | _
  · rw [keysD_assignD_of_not_contains d a b h]
    have ha : a ∉ keysD d := by
      intro hmem
      rw [← containsD_iff_mem_keysD] at hmem
      rw [h] at hmem
      exact Bool.false_ne_true hmem
    simp [List.nodup_append, hd, ha]
  · rw [keysD_assignD_of_contains d a b h]
    exact hd

theorem nodup_keysD_eraseD (d : List (κ × β)) (a : κ)
    (hd : (keysD d).Nodup) : (keysD (eraseD d a)).Nodup :=
  (keysD_eraseD_sublist d a).nodup hd

theorem length_assignD_of_contains (d : List (κ × β)) (a : κ) (b : β)
    (h : containsD d a = true) : (assignD d a b).length = d.length := by
  have h1 : (keysD (assignD d a b)).length = (keysD d).length := by
    rw [keysD_assignD_of_contains d a b h]
  simpa [keysD] using h1

theorem length_assignD_of_not_contains (d : List (κ × β)) (a : κ) (b : β)
    (h : containsD d a = false) : (assignD d a b).length = d.length + 1 := by
  have h1 : (keysD (assignD d a b)).length = (keysD d).length + 1 := by
    rw [keysD_assignD_of_not_contains d a b h]
    simp
  simpa [keysD] using h1

end DictLemmas

section PySetLemmas

variable {α : Type} [DecidableEq α]

@[simp] theorem mem_setAdd (l : List α) (x a : α) :
    a ∈ setAdd l x ↔ a ∈ l ∨ a = x := by
  by_cases h : x ∈ l
  · simp only [setAdd, if_pos h]
    constructor
    · exact Or.inl
    · rintro (h' | rfl) <;> assumption
  · simp [setAdd, if_neg h]

theorem nodup_setAdd (l : List α) (x : α) (h : l.Nodup) :
    (setAdd l x).Nodup := by
  by_cases hx : x ∈ l
  · simpa [setAdd, hx] using h
  · simp [setAdd, hx, List.nodup_append, h]

theorem setRemove_eq_some_iff (l : List α) (x : α) (l' : List α) :
    setRemove l x = some l' ↔ x ∈ l ∧ l' = l.erase x := by
  by_cases h : x ∈ l <;> simp [setRemove, h, eq_comm]

theorem setRemove_eq_none_iff (l : List α) (x : α) :
    setRemove l x = none ↔ x ∉ l := by
  by_cases h : x ∈ l <;> simp [setRemove, h]

theorem mem_of_mem_setRemove (l : List α) (x : α) (l' : List α)
    (h : setRemove l x = some l') {a : α} (ha : a ∈ l') : a ∈ l := by
  rw [setRemove_eq_some_iff] at h
  exact List.mem_of_mem_erase (h.2 ▸ ha)

theorem not_mem_setRemove_self (l : List α) (x : α) (l' : List α)
    (hd : l.Nodup) (h : setRemove l x = some l') : x ∉ l' := by
  rw [setRemove_eq_some_iff] at h
  rw [h.2]
  exact hd.not_mem_erase

theorem mem_setRemove_of_ne (l : List α) (x : α) (l' : List α)
    (hd : l.Nodup) (h : setRemove l x = some l') {a : α} (hax : a ≠ x) :
    a ∈ l' ↔ a ∈ l := by
  rw [setRemove_eq_some_iff] at h
  rw [h.2, hd.mem_erase_iff]
  simp [hax]

theorem nodup_setRemove (l : List α) (x : α) (l' : List α)
    (hd : l.Nodup) (h : setRemove l x = some l') : l'.Nodup := by
  rw [setRemove_eq_some_iff] at h
  exact h.2 ▸ hd.erase x

end PySetLemmas

theorem NodeColl.size_eq_length_members (c : NodeColl) :
    c.size = c.members.length := by
  cases c with
  | ordered l => rfl
  | unordered s => rfl

theorem EdgeId.size_eq_members_length (e : EdgeId) :
    e.size = e.members.length :=
  e.nodes.size_eq_length_members

/-! ### Further dict lemmas -/

section DictAppend

variable {κ β : Type} [DecidableEq κ]

@[simp] theorem keysD_append (d1 d2 : List (κ × β)) :
    keysD (d1 ++ d2) = keysD d1 ++ keysD d2 :=
  List.map_append _ d1 d2

theorem containsD_eq_false_iff (d : List (κ × β)) (a : κ) :
    containsD d a = false ↔ lookupD d a = none := by
  unfold containsD
  cases lookupD d a <;> simp

theorem lookupD_append_left (d1 d2 : List (κ × β)) (a : κ) (v : β)
    (h : lookupD d1 a = some v) : lookupD (d1 ++ d2) a = some v := by
  induction d1 with
  | nil => simp at h
  | cons p rest ih =>
    obtain ⟨k, w⟩ := p
    by_cases hk : k = a
    · simp_all
    · simp_all

theorem lookupD_append_right (d1 d2 : List (κ × β)) (a : κ)
    (h : lookupD d1 a = none) : lookupD (d1 ++ d2) a = lookupD d2 a := by
  induction d1 with
  | nil => simp
  | cons p rest ih =>
    obtain ⟨k, w⟩ := p
    by_cases hk : k = a
    · simp_all
    · simp_all

end DictAppend

/-! ### Structural lemmas about the operation loops -/

theorem addEdgeMembers_edge_data (e : EdgeId) (L : List Node) (g : HG) :
    (addEdgeMembers e g L).1.edge_data = g.edge_data := by
  induction L generalizing g with
  | nil => rfl
  | cons n rest ih =>
    by_cases h : containsD g.node_data n
    · cases hL : lookupD g.node_incidence n with
      | some L0 => simp [addEdgeMembers, h, hL, ih]
      | none => simp [addEdgeMembers, h, hL]
    · simp [addEdgeMembers, h, ih]

theorem removeIncidence_edge_data (target : EdgeId) (L : List Node) (g : HG) :
    (removeIncidence target g L).1.edge_data = g.edge_data := by
  induction L generalizing g with
  | nil => rfl
  | cons n rest ih =>
    cases hL : lookupD g.node_incidence n with
    | none => simp [removeIncidence, hL]
    | some L0 =>
      cases hR : setRemove L0 target with
      | none => simp [removeIncidence, hL, hR]
      | some L1 => simp [removeIncidence, hL, hR, ih]

theorem removeIncidence_node_data (target : EdgeId) (L : List Node) (g : HG) :
    (removeIncidence target g L).1.node_data = g.node_data := by
  induction L generalizing g with
  | nil => rfl
  | cons n rest ih =>
    cases hL : lookupD g.node_incidence n with
    | none => simp [removeIncidence, hL]
    | some L0 =>
      cases hR : setRemove L0 target with
      | none => simp [removeIncidence, hL, hR]
      | some L1 => simp [removeIncidence, hL, hR, ih]

theorem addEdgeMembers_ok (e : EdgeId) (L : List Node) (g : HG)
    (h : ∀ n, n ∈ keysD g.node_data → n ∈ keysD g.node_incidence) :
    (addEdgeMembers e g L).2 = none ∧
    (∀ n, n ∈ keysD (addEdgeMembers e g L).1.node_data →
      n ∈ keysD (addEdgeMembers e g L).1.node_incidence) := by
  induction L generalizing g with
  | nil => exact ⟨rfl, h⟩
  | cons n rest ih =>
    by_cases hc : containsD g.node_data n
    · have hmem : n ∈ keysD g.node_incidence :=
        h n ((containsD_iff_mem_keysD _ _).mp hc)
      have hsome : (lookupD g.node_incidence n).isSome :=
        (lookupD_isSome_iff_mem_keysD _ _).mpr hmem
      cases hL : lookupD g.node_incidence n with
      | none => rw [hL] at hsome; simp at hsome
      | some L0 =>
        have hsub : ∀ m, m ∈ keysD g.node_data →
            m ∈ keysD (assignD g.node_incidence n (setAdd L0 e)) := by
          intro m hm
          rw [mem_keysD_assignD]
          exact Or.inl (h m hm)
        simpa [addEdgeMembers, hc, hL] using ih _ hsub
    · have hsub : ∀ m, m ∈ keysD (g.node_data ++ [(n, [])]) →
          m ∈ keysD (g.node_incidence ++ [(n, [e])]) := by
        intro m hm
        rw [keysD_append] at hm ⊢
        rcases List.mem_append.mp hm with hm | hm
        · exact List.mem_append.mpr (Or.inl (h m hm))
        · exact List.mem_append.mpr (Or.inr (by simpa using hm))
      simpa [addEdgeMembers, hc] using ih _ hsub

/-! ### Claim C2 -/

/-- Claim C2, as stated, is false: `add_edge(())` raises no
`InvalidEdge` condition (the code has no such check or exception
class); on a fresh graph it reports a newly created edge and registers
the empty-membered identity in the edge-attribute map. -/
theorem claim_C2_counterexample :
    (add_edge emptyHG (.raw (.ordered []) none [])).2 =
      .created ⟨.ordered [], none⟩ ∧
    containsD (add_edge emptyHG (.raw (.ordered []) none [])).1.edge_data
      ⟨.ordered [], none⟩ = true := by
  decide

/-- Claim C2 amended: for every graph, `add_edge` on an empty member
collection does not fail — it reports the created edge (or a
pre-existing one) and leaves the empty-membered identity registered in
the edge-attribute map. -/
theorem claim_C2_amended (g : HG) (nb : NodeColl) (ek : Option Nat)
    (kwds : Attrs) (h : nb.members = []) :
    ((add_edge g (.raw nb ek kwds)).2 = .created ⟨nb, ek⟩ ∨
      (add_edge g (.raw nb ek kwds)).2 = .existing) ∧
    containsD (add_edge g (.raw nb ek kwds)).1.edge_data ⟨nb, ek⟩ = true := by
  cases hL : lookupD g.edge_data ⟨nb, ek⟩ with
  | some d =>
    constructor
    · right
      simp [add_edge, hL]
    · simp [add_edge, hL, containsD]
  | none =>
    have hmem : EdgeId.members ⟨nb, ek⟩ = [] := h
    constructor
    · left
      simp [add_edge, hL, hmem, addEdgeMembers]
    · simp only [add_edge, hL, hmem, addEdgeMembers, containsD]
      rw [lookupD_append_right _ _ _ hL]
      simp

/-- Witness for the amended claim C2 at `add_edge(())` on a fresh
graph. -/
theorem claim_C2_amended_witness :
    ((add_edge emptyHG (.raw (.ordered []) none [])).2 =
        .created ⟨.ordered [], none⟩ ∨
      (add_edge emptyHG (.raw (.ordered []) none [])).2 = .existing) ∧
    containsD (add_edge emptyHG (.raw (.ordered []) none [])).1.edge_data
      ⟨.ordered [], none⟩ = true :=
  claim_C2_amended emptyHG (.ordered []) none [] rfl

/-! ### Claim C5 -/

/-- Claim C5: on every graph, `clear()` does leave all three maps
empty, but it never returns normally — after emptying them it raises
`AttributeError`, because `self.graph` is not an attribute
`HyperGraph.__init__` ever defines. -/
theorem claim_C5_clear_empties_then_raises (g : HG) :
    clear g = (emptyHG, some PyErr.attributeError) :=
  rfl

/-! ### Claim C8 -/

/-- Claim C8, as stated, is false: `neighbors` is a generator function,
so calling it on an absent node returns a generator object without
raising; the `KeyError` surfaces only when the sequence is consumed. -/
theorem claim_C8_counterexample :
    neighbors emptyHG 0 = NeighborsGen.mk emptyHG 0 ∧
    (neighbors emptyHG 0).consume = .error PyErr.keyError := by
  constructor
  · rfl
  · decide

/-- Claim C8 amended: for a node absent from the incidence map (for
invariant-satisfying graphs, exactly the nodes absent from the graph),
the call `neighbors(n)` itself succeeds, returning a generator bound to
the graph and node, and the `KeyError` (`NodeNotFound`) failure is
raised when the returned sequence is consumed — it is not converted to
a sentinel such as an empty sequence. -/
theorem claim_C8_amended (g : HG) (n : Node)
    (h : lookupD g.node_incidence n = none) :
    neighbors g n = NeighborsGen.mk g n ∧
    (neighbors g n).consume = .error PyErr.keyError := by
  refine ⟨rfl, ?_⟩
  simp [neighbors, NeighborsGen.consume, neighborsSeq, h]

/-- Witness for the amended claim C8: node 3 on a fresh graph. -/
theorem claim_C8_amended_witness :
    neighbors emptyHG 3 = NeighborsGen.mk emptyHG 3 ∧
    (neighbors emptyHG 3).consume = .error PyErr.keyError :=
  claim_C8_amended emptyHG 3 rfl

/-! ### Claim C9 -/

/-- Claim C9: two `add_edge` calls over the same member collection with
different discriminators create two distinct edges that coexist, and
`size()` counts both; the identities never collide because edge
equality compares the discriminator. (The key-set hypothesis rules out
graphs whose `node_data`/`node_incidence` key sets have drifted apart,
which the invariants forbid.) -/
theorem claim_C9 (g : HG) (nb : NodeColl) (k1 k2 : Nat) (kw1 kw2 : Attrs)
    (hne : k1 ≠ k2)
    (hkeys : ∀ n, n ∈ keysD g.node_data → n ∈ keysD g.node_incidence)
    (h1 : containsD g.edge_data ⟨nb, some k1⟩ = false)
    (h2 : containsD g.edge_data ⟨nb, some k2⟩ = false) :
    (⟨nb, some k1⟩ : EdgeId) ≠ ⟨nb, some k2⟩ ∧
    (add_edge g (.raw nb (some k1) kw1)).2 = .created ⟨nb, some k1⟩ ∧
    (add_edge (add_edge g (.raw nb (some k1) kw1)).1
        (.raw nb (some k2) kw2)).2 = .created ⟨nb, some k2⟩ ∧
    containsD (add_edge (add_edge g (.raw nb (some k1) kw1)).1
        (.raw nb (some k2) kw2)).1.edge_data ⟨nb, some k1⟩ = true ∧
    containsD (add_edge (add_edge g (.raw nb (some k1) kw1)).1
        (.raw nb (some k2) kw2)).1.edge_data ⟨nb, some k2⟩ = true ∧
    size (add_edge (add_edge g (.raw nb (some k1) kw1)).1
        (.raw nb (some k2) kw2)).1 = size g + 2 := by
  have hne' : (⟨nb, some k1⟩ : EdgeId) ≠ ⟨nb, some k2⟩ := by
    intro hc
    exact hne (Option.some.inj (congrArg EdgeId.edgekey hc))
  have hlook1 : lookupD g.edge_data ⟨nb, some k1⟩ = none :=
    (containsD_eq_false_iff _ _).mp h1
  have hlook2 : lookupD g.edge_data ⟨nb, some k2⟩ = none :=
    (containsD_eq_false_iff _ _).mp h2
  obtain ⟨hok1, hsub1⟩ := addEdgeMembers_ok ⟨nb, some k1⟩ nb.members
    { g with edge_data := g.edge_data ++ [(⟨nb, some k1⟩, kw1)] } hkeys
  rcases hP1 : addEdgeMembers ⟨nb, some k1⟩
      { g with edge_data := g.edge_data ++ [(⟨nb, some k1⟩, kw1)] }
      nb.members with ⟨g1', err1⟩
  rw [hP1] at hok1 hsub1
  simp only at hok1 hsub1
  subst hok1
  have hr1 : add_edge g (.raw nb (some k1) kw1) =
      (g1', .created ⟨nb, some k1⟩) := by
    simp only [add_edge, EdgeId.members, hlook1, hP1]
  have hg1ed : g1'.edge_data = g.edge_data ++ [(⟨nb, some k1⟩, kw1)] := by
    have hs := addEdgeMembers_edge_data ⟨nb, some k1⟩ nb.members
      { g with edge_data := g.edge_data ++ [(⟨nb, some k1⟩, kw1)] }
    rw [hP1] at hs
    exact hs
  have hlook2' : lookupD g1'.edge_data ⟨nb, some k2⟩ = none := by
    rw [hg1ed, lookupD_append_right _ _ _ hlook2]
    simp [hne]
  obtain ⟨hok2, hsub2⟩ := addEdgeMembers_ok ⟨nb, some k2⟩ nb.members
    { g1' with edge_data := g1'.edge_data ++ [(⟨nb, some k2⟩, kw2)] } hsub1
  rcases hP2 : addEdgeMembers ⟨nb, some k2⟩
      { g1' with edge_data := g1'.edge_data ++ [(⟨nb, some k2⟩, kw2)] }
      nb.members with ⟨g2', err2⟩
  rw [hP2] at hok2 hsub2
  simp only at hok2 hsub2
  subst hok2
  have hr2 : add_edge g1' (.raw nb (some k2) kw2) =
      (g2', .created ⟨nb, some k2⟩) := by
    simp only [add_edge, EdgeId.members, hlook2', hP2]
  have hg2ed : g2'.edge_data =
      (g.edge_data ++ [(⟨nb, some k1⟩, kw1)]) ++ [(⟨nb, some k2⟩, kw2)] := by
    have hs := addEdgeMembers_edge_data ⟨nb, some k2⟩ nb.members
      { g1' with edge_data := g1'.edge_data ++ [(⟨nb, some k2⟩, kw2)] }
    rw [hP2] at hs
    rw [hs]
    simp [hg1ed]
  have hv1 : lookupD (g.edge_data ++ [(⟨nb, some k1⟩, kw1),
      (⟨nb, some k2⟩, kw2)]) ⟨nb, some k1⟩ = some kw1 := by
    rw [lookupD_append_right _ _ _ hlook1]
    simp
  have hv2 : lookupD (g.edge_data ++ [(⟨nb, some k1⟩, kw1),
      (⟨nb, some k2⟩, kw2)]) ⟨nb, some k2⟩ = some kw2 := by
    rw [lookupD_append_right _ _ _ hlook2]
    simp [hne]
  refine ⟨hne', ?_, ?_, ?_, ?_, ?_⟩
  · rw [hr1]
  · rw [hr1, hr2]
  · rw [hr1]
    simp only [hr2]
    simp [containsD, hg2ed, hv1]
  · rw [hr1]
    simp only [hr2]
    simp [containsD, hg2ed, hv2]
  · rw [hr1]
    simp only [hr2, hg2ed, size]
    simp

/-- Witness for claim C9: discriminators 0 and 1 over `(1,2)` on a
fresh graph. -/
theorem claim_C9_witness :
    (⟨.ordered [1, 2], some 0⟩ : EdgeId) ≠ ⟨.ordered [1, 2], some 1⟩ ∧
    (add_edge emptyHG (.raw (.ordered [1, 2]) (some 0) [])).2 =
      .created ⟨.ordered [1, 2], some 0⟩ ∧
    (add_edge (add_edge emptyHG (.raw (.ordered [1, 2]) (some 0) [])).1
        (.raw (.ordered [1, 2]) (some 1) [])).2 =
      .created ⟨.ordered [1, 2], some 1⟩ ∧
    containsD (add_edge (add_edge emptyHG
        (.raw (.ordered [1, 2]) (some 0) [])).1
        (.raw (.ordered [1, 2]) (some 1) [])).1.edge_data
      ⟨.ordered [1, 2], some 0⟩ = true ∧
    containsD (add_edge (add_edge emptyHG
        (.raw (.ordered [1, 2]) (some 0) [])).1
        (.raw (.ordered [1, 2]) (some 1) [])).1.edge_data
      ⟨.ordered [1, 2], some 1⟩ = true ∧
    size (add_edge (add_edge emptyHG
        (.raw (.ordered [1, 2]) (some 0) [])).1
        (.raw (.ordered [1, 2]) (some 1) [])).1 = size emptyHG + 2 :=
  claim_C9 emptyHG (.ordered [1, 2]) 0 1 [] [] (by decide)
    (fun n hn => absurd hn (by simp [emptyHG])) (by decide) (by decide)

/-! ### Claim C10 -/

/-- Claim C10: `has_edge`/`remove_edge` on raw members resolve to the
identity with an absent (`None`) discriminator, so an edge stored with
a non-absent discriminator is never found or removed that way — it is
matched only by a pre-built edge carrying the same discriminator. -/
theorem claim_C10 (g : HG) (nb : NodeColl) (k : Nat)
    (hk : containsD g.edge_data ⟨nb, some k⟩ = true) :
    has_edge g (.raw nb) = containsD g.edge_data ⟨nb, none⟩ ∧
    containsD (remove_edge g (.raw nb)).1.edge_data ⟨nb, some k⟩ = true ∧
    has_edge g (.pre ⟨nb, some k⟩) = true := by
  have hne : (⟨nb, none⟩ : EdgeId) ≠ ⟨nb, some k⟩ := by
    intro hc
    exact Option.noConfusion (congrArg EdgeId.edgekey hc)
  refine ⟨rfl, ?_, hk⟩
  by_cases hc : containsD g.edge_data ⟨nb, none⟩
  · have hstep : (remove_edge g (.raw nb)).1.edge_data =
        eraseD g.edge_data ⟨nb, none⟩ := by
      simp only [remove_edge, resolveRef, hc, if_true]
      exact removeIncidence_edge_data _ _ _
    rw [containsD_iff_mem_keysD] at hk ⊢
    rw [hstep, mem_keysD_eraseD_of_ne _ _ _ hne]
    exact hk
  · have hcf : containsD g.edge_data ⟨nb, none⟩ = false := by
      simpa using hc
    simp only [remove_edge, resolveRef, hcf, Bool.false_eq_true, if_false]
    exact hk

/-- Witness for claim C10: the edge `(1,2)` stored with discriminator 7
survives `remove_edge((1,2))`. -/
theorem claim_C10_witness :
    has_edge keyedGraph (.raw (.ordered [1, 2])) =
      containsD keyedGraph.edge_data ⟨.ordered [1, 2], none⟩ ∧
    containsD (remove_edge keyedGraph (.raw (.ordered [1, 2]))).1.edge_data
      ⟨.ordered [1, 2], some 7⟩ = true ∧
    has_edge keyedGraph (.pre ⟨.ordered [1, 2], some 7⟩) = true :=
  claim_C10 keyedGraph (.ordered [1, 2]) 7 (by decide)

/-! ### Claim C4 -/

theorem length_filter_ne_add_count (l : List Node) (n : Node) :
    (l.filter (fun x => x ≠ n)).length + l.count n = l.length := by
  induction l with
  | nil => simp
  | cons a t ih =>
    by_cases h : a = n
    · subst h
      have hf : (a :: t).filter (fun x => x ≠ a) =
          t.filter (fun x => x ≠ a) := by
        simp
      have hc : (a :: t).count a = t.count a + 1 :=
        List.count_cons_self a t
      rw [hf, hc, List.length_cons]
      omega
    · have hf : (a :: t).filter (fun x => x ≠ n) =
          a :: t.filter (fun x => x ≠ n) := by
        simp [h]
      have hc : (a :: t).count n = t.count n := by
        simp [List.count_cons, h]
      rw [hf, hc, List.length_cons, List.length_cons]
      omega

theorem neighborsOfEdge_length (node : Node) (e : EdgeId)
    (h : (EdgeId.members e).count node = 1) :
    (neighborsOfEdge node e).length =
      if 1 < e.size then e.size - 1 else 1 := by
  by_cases h1 : e.size = 1
  · simp [neighborsOfEdge, h1]
  · have hsz : e.size = (EdgeId.members e).length :=
      EdgeId.size_eq_members_length e
    have hpos : 1 ≤ (EdgeId.members e).length := by
      cases hm : EdgeId.members e with
      | nil => rw [hm] at h; simp at h
      | cons a t => simp
    have h2 : 1 < e.size := by omega
    have hcnt := length_filter_ne_add_count (EdgeId.members e) node
    rw [h] at hcnt
    rw [if_pos h2]
    simp only [neighborsOfEdge, h1, if_false]
    omega

theorem sum_edge_lens (node : Node) (L : List EdgeId)
    (h : ∀ e ∈ L, (EdgeId.members e).count node = 1) :
    (L.map (fun e => if 1 < e.size then e.size - 1 else 1)).sum =
      (L.flatMap (neighborsOfEdge node)).length := by
  induction L with
  | nil => rfl
  | cons e t ih =>
    simp only [List.map_cons, List.sum_cons, List.flatMap_cons,
      List.length_append]
    rw [neighborsOfEdge_length node e (h e (by simp)),
      ih (fun e' he' => h e' (by simp [he']))]

/-- Claim C4, as stated, is false: on `add_edge((1,1,2))` the
NeighborView of node 1 reports length 2 (`len(e)-1`), while iterating
it yields the single item `[2]`. -/
theorem claim_C4_counterexample :
    NeighborMap.len ⟨dupMemberGraph, 1⟩ = .ok 2 ∧
    NeighborMap.iterSeq ⟨dupMemberGraph, 1⟩ = .ok [2] ∧
    NeighborMap.len ⟨dupMemberGraph, 1⟩ ≠
      (NeighborMap.iterSeq ⟨dupMemberGraph, 1⟩).map List.length := by
  decide

/-- Claim C4 amended: for a node `n` present in the incidence map, the
NeighborView length (sum over incident edges of `len(e)-1` for
multi-member edges, 1 for unary edges) equals the count of items
produced by iterating, provided every incident edge contains `n`
exactly once (which can fail only for ordered edges listing `n`
twice). -/
theorem claim_C4_amended (g : HG) (n : Node) (L : List EdgeId)
    (hL : lookupD g.node_incidence n = some L)
    (hcount : ∀ e ∈ L, (EdgeId.members e).count n = 1) :
    NeighborMap.len ⟨g, n⟩ =
      (NeighborMap.iterSeq ⟨g, n⟩).map List.length := by
  simp only [NeighborMap.len, NeighborMap.iterSeq, hL, Except.map]
  exact congrArg Except.ok (sum_edge_lens n L hcount)

/-- Witness for the amended claim C4: node 14 of the two-hyperedge demo
graph. -/
theorem claim_C4_amended_witness :
    NeighborMap.len ⟨hyperDemoGraph, 14⟩ =
      (NeighborMap.iterSeq ⟨hyperDemoGraph, 14⟩).map List.length :=
  claim_C4_amended hyperDemoGraph 14
    [⟨.ordered [11, 12, 13, 14, 15, 16], none⟩,
      ⟨.ordered [14, 15, 16, 17, 18], none⟩]
    (by decide) (by decide)

/-! ### Bridging lemmas for the invariant clauses -/

section LookupMem

variable {κ β : Type} [DecidableEq κ]

theorem lookupD_mem (d : List (κ × β)) (a : κ) (b : β)
    (h : lookupD d a = some b) : (a, b) ∈ d := by
  induction d with
  | nil => simp at h
  | cons p rest ih =>
    obtain ⟨k, v⟩ := p
    by_cases hk : k = a
    · subst hk
      rw [lookupD_cons, if_pos rfl] at h
      simp_all
    · rw [lookupD_cons, if_neg hk] at h
      exact List.mem_cons_of_mem _ (ih h)

end LookupMem

theorem WF.inc_nodup_lookup {g : HG} (hwf : WF g) {n : Node}
    {L : List EdgeId} (h : lookupD g.node_incidence n = some L) :
    L.Nodup :=
  hwf.inc_nodup (n, L) (lookupD_mem _ _ _ h)

theorem Inv.keys_eq {g : HG} (hinv : Inv g) (n : Node) :
    n ∈ keysD g.node_data ↔ n ∈ keysD g.node_incidence :=
  ⟨fun h => hinv.keys_sub_ni h, fun h => hinv.keys_sub_nd h⟩

theorem incContains_iff (g : HG) (n : Node) (e : EdgeId) :
    incContains g n e = true ↔
      ∃ L, lookupD g.node_incidence n = some L ∧ e ∈ L := by
  unfold incContains
  cases h : lookupD g.node_incidence n <;> simp

theorem Inv.edge_mem_lookup {g : HG} (hinv : Inv g) {e : EdgeId}
    {d : Attrs} (hd : lookupD g.edge_data e = some d) {n : Node}
    (hn : n ∈ EdgeId.members e) :
    ∃ L, lookupD g.node_incidence n = some L ∧ e ∈ L :=
  (incContains_iff g n e).mp
    (hinv.edge_mem (e, d) (lookupD_mem _ _ _ hd) n hn)

theorem Inv.inc_mem_lookup {g : HG} (hinv : Inv g) {n : Node}
    {L : List EdgeId} (h : lookupD g.node_incidence n = some L)
    {e : EdgeId} (he : e ∈ L) :
    e ∈ keysD g.edge_data ∧ n ∈ EdgeId.members e :=
  hinv.inc_mem (n, L) (lookupD_mem _ _ _ h) e he

/-! ### The incidence-removal loop -/

/-- When the target edge sits in the incidence set of every listed
member (and members are not repeated), the removal loop completes and
erases the target from exactly those sets, leaving all others and the
rest of the state untouched. -/
theorem removeIncidence_spec (target : EdgeId) (M : List Node) (s : HG)
    (hM : M.Nodup)
    (hpre : ∀ n ∈ M, ∃ L, lookupD s.node_incidence n = some L ∧ target ∈ L) :
    (removeIncidence target s M).2 = none ∧
    (∀ n, n ∉ M → lookupD (removeIncidence target s M).1.node_incidence n =
        lookupD s.node_incidence n) ∧
    (∀ n ∈ M, ∀ L, lookupD s.node_incidence n = some L →
        lookupD (removeIncidence target s M).1.node_incidence n =
          some (L.erase target)) := by
  induction M generalizing s with
  | nil =>
    refine ⟨rfl, fun n _ => rfl, fun n hn => absurd hn (by simp)⟩
  | cons n rest ih =>
    obtain ⟨L, hL, htL⟩ := hpre n (by simp)
    have hrem : setRemove L target = some (L.erase target) := by
      rw [setRemove_eq_some_iff]
      exact ⟨htL, rfl⟩
    have hnodup := List.nodup_cons.mp hM
    have hstep : removeIncidence target s (n :: rest) =
        removeIncidence target
          { s with node_incidence := assignD s.node_incidence n (L.erase target) } rest := by
      simp [removeIncidence, hL, hrem]
    set s1 : HG :=
      { s with node_incidence := assignD s.node_incidence n (L.erase target) }
      with hs1
    have hpre1 : ∀ m ∈ rest,
        ∃ L1, lookupD s1.node_incidence m = some L1 ∧ target ∈ L1 := by
      intro m hm
      have hmn : n ≠ m := fun hc => hnodup.1 (hc ▸ hm)
      obtain ⟨L1, hL1, ht1⟩ := hpre m (by simp [hm])
      refine ⟨L1, ?_, ht1⟩
      rw [hs1]
      simpa [lookupD_assignD_ne _ _ _ _ hmn] using hL1
    obtain ⟨hok, hout, hin⟩ := ih s1 hnodup.2 hpre1
    refine ⟨by rw [hstep]; exact hok, ?_, ?_⟩
    · intro m hm
      have hmn : n ≠ m := fun hc => hm (by simp [hc])
      have hmr : m ∉ rest := fun hc => hm (by simp [hc])
      rw [hstep, hout m hmr, hs1]
      simpa using lookupD_assignD_ne s.node_incidence n (L.erase target) m hmn
    · intro m hm L0 hL0
      rcases List.mem_cons.mp hm with rfl | hmr
      · have hLL : L0 = L := Option.some.inj (hL0.symm.trans hL)
        subst hLL
        rw [hstep, hout m hnodup.1, hs1]
        simp
      · have hmn : n ≠ m := fun hc => hnodup.1 (hc ▸ hmr)
        have hL0' : lookupD s1.node_incidence m = some L0 := by
          rw [hs1]
          simpa [lookupD_assignD_ne _ _ _ _ hmn] using hL0
        rw [hstep]
        exact hin m hmr L0 hL0'

/-! ### Claim C7 -/

/-- Claim C7, as stated, is false: on `add_edge((1,1))` the edge
`(1,1)` exists, yet `remove_edge((1,1))` raises `KeyError` — the
second traversal of the duplicated member finds the edge already gone
from `node_incidence[1]` — so failure is not equivalent to the edge
being absent. -/
theorem claim_C7_counterexample :
    has_edge dupPairGraph (.raw (.ordered [1, 1])) = true ∧
    (remove_edge dupPairGraph (.raw (.ordered [1, 1]))).2 =
      some PyErr.keyError := by
  decide

/-- Claim C7 amended: for a well-formed invariant-satisfying graph and
an argument resolving to an identity without duplicated members,
`remove_edge` fails with `KeyError` (`EdgeNotFound`) exactly when the
identity is absent, leaving the graph unchanged in that case; when the
identity is present it completes, deleting the edge from the
edge-attribute map (so `has_edge` turns false) and from every node's
incidence set. -/
theorem claim_C7_amended (g : HG) (r : EdgeRef) (hwf : WF g) (hinv : Inv g)
    (hnodup : (EdgeId.members (resolveRef r)).Nodup) :
    (containsD g.edge_data (resolveRef r) = false →
      remove_edge g r = (g, some PyErr.keyError)) ∧
    (containsD g.edge_data (resolveRef r) = true →
      (remove_edge g r).2 = none ∧
      containsD (remove_edge g r).1.edge_data (resolveRef r) = false ∧
      has_edge (remove_edge g r).1 r = false ∧
      (∀ n L, lookupD (remove_edge g r).1.node_incidence n = some L →
        resolveRef r ∉ L)) := by
  constructor
  · intro hc
    simp [remove_edge, hc]
  · intro hc
    obtain ⟨d, hd⟩ : ∃ d, lookupD g.edge_data (resolveRef r) = some d := by
      unfold containsD at hc
      cases hL : lookupD g.edge_data (resolveRef r) with
      | none => rw [hL] at hc; simp at hc
      | some d => exact ⟨d, rfl⟩
    have hstep : remove_edge g r =
        removeIncidence (resolveRef r)
          { g with edge_data := eraseD g.edge_data (resolveRef r) }
          (EdgeId.members (resolveRef r)) := by
      simp [remove_edge, hc, EdgeId.members]
    have hpre : ∀ n ∈ EdgeId.members (resolveRef r),
        ∃ L, lookupD ({ g with
            edge_data := eraseD g.edge_data (resolveRef r) } :
              HG).node_incidence n = some L ∧ resolveRef r ∈ L := by
      intro n hn
      exact hinv.edge_mem_lookup hd hn
    obtain ⟨hok, hout, hin⟩ := removeIncidence_spec (resolveRef r)
      (EdgeId.members (resolveRef r))
      { g with edge_data := eraseD g.edge_data (resolveRef r) } hnodup hpre
    have hed : (remove_edge g r).1.edge_data =
        eraseD g.edge_data (resolveRef r) := by
      rw [hstep]
      exact removeIncidence_edge_data _ _ _
    have hcf : containsD (remove_edge g r).1.edge_data (resolveRef r) =
        false := by
      rw [hed, containsD_eq_false_iff]
      exact lookupD_eraseD_self _ _ hwf.ed_nodup
    refine ⟨by rw [hstep]; exact hok, hcf, hcf, ?_⟩
    intro n L hL
    by_cases hn : n ∈ EdgeId.members (resolveRef r)
    · obtain ⟨L0, hL0, htL0⟩ := hpre n hn
      have hres := hin n hn L0 hL0
      rw [hstep] at hL
      rw [hL] at hres
      have hLe : L = L0.erase (resolveRef r) := Option.some.inj hres
      subst hLe
      exact (hwf.inc_nodup_lookup hL0).not_mem_erase
    · intro hmem
      rw [hstep, hout n hn] at hL
      exact hn (hinv.inc_mem_lookup hL hmem).2

/-- Witness for the amended claim C7: removing the present edge `(2,3)`
succeeds and `has_edge` turns false. -/
theorem claim_C7_amended_witness :
    (remove_edge pairGraph (.raw (.ordered [2, 3]))).2 = none ∧
    containsD (remove_edge pairGraph (.raw (.ordered [2, 3]))).1.edge_data
      ⟨.ordered [2, 3], none⟩ = false ∧
    has_edge (remove_edge pairGraph (.raw (.ordered [2, 3]))).1
      (.raw (.ordered [2, 3])) = false := by
  have h := (claim_C7_amended pairGraph (.raw (.ordered [2, 3]))
    ⟨by decide, by decide, by decide, by decide⟩
    ⟨by decide, by decide, by decide, by decide⟩
    (by decide)).2 (by decide)
  exact ⟨h.1, h.2.1, h.2.2.1⟩

/-! ### Entry-level dict lemmas -/

section DictEntries

variable {κ β : Type} [DecidableEq κ]

theorem mem_keysD_of_mem {d : List (κ × β)} {p : κ × β} (h : p ∈ d) :
    p.1 ∈ keysD d :=
  List.mem_map_of_mem Prod.fst h

theorem mem_assignD {d : List (κ × β)} {a : κ} {b : β} {p : κ × β}
    (h : p ∈ assignD d a b) : p ∈ d ∨ (p.1 = a ∧ p.2 = b) := by
  induction d with
  | nil =>
    right
    simp [assignD] at h
    simp [h]
  | cons q rest ih =>
    obtain ⟨k, v⟩ := q
    by_cases hk : k = a
    · subst hk
      rw [assignD, if_pos rfl] at h
      rcases List.mem_cons.mp h with rfl | h'
      · exact Or.inr ⟨rfl, rfl⟩
      · exact Or.inl (List.mem_cons_of_mem _ h')
    · rw [assignD, if_neg hk] at h
      rcases List.mem_cons.mp h with rfl | h'
      · exact Or.inl (List.mem_cons_self _ _)
      · rcases ih h' with h'' | h''
        · exact Or.inl (List.mem_cons_of_mem _ h'')
        · exact Or.inr h''

theorem mem_of_mem_eraseD {d : List (κ × β)} {a : κ} {p : κ × β}
    (h : p ∈ eraseD d a) : p ∈ d := by
  induction d with
  | nil => simpa [eraseD] using h
  | cons q rest ih =>
    obtain ⟨k, v⟩ := q
    by_cases hk : k = a
    · rw [eraseD, if_pos hk] at h
      exact List.mem_cons_of_mem _ h
    · rw [eraseD, if_neg hk] at h
      rcases List.mem_cons.mp h with rfl | h'
      · exact List.mem_cons_self _ _
      · exact List.mem_cons_of_mem _ (ih h')

theorem lookupD_of_mem_nodup {d : List (κ × β)} (hd : (keysD d).Nodup)
    {p : κ × β} (h : p ∈ d) : lookupD d p.1 = some p.2 := by
  induction d with
  | nil => simp at h
  | cons q rest ih =>
    obtain ⟨k, v⟩ := q
    rw [keysD_cons, List.nodup_cons] at hd
    rcases List.mem_cons.mp h with rfl | h'
    · simp
    · have hk : k ≠ p.1 := by
        intro hc
        apply hd.1
        rw [hc]
        have hx := mem_keysD_of_mem h'
        exact hx
      rw [lookupD_cons, if_neg hk]
      exact ih hd.2 h'

theorem keysD_eraseD (d : List (κ × β)) (a : κ) :
    keysD (eraseD d a) = (keysD d).erase a := by
  induction d with
  | nil => simp [eraseD]
  | cons q rest ih =>
    obtain ⟨k, v⟩ := q
    by_cases hk : k = a
    · subst hk
      rw [eraseD, if_pos rfl, keysD_cons, List.erase_cons_head]
    · rw [eraseD, if_neg hk, keysD_cons, keysD_cons, ih,
        List.erase_cons_tail]
      simp [hk]

theorem mem_eraseD_key_ne {d : List (κ × β)} (hd : (keysD d).Nodup)
    {a : κ} {p : κ × β} (h : p ∈ eraseD d a) : p.1 ≠ a := by
  intro hc
  have := mem_keysD_of_mem h
  rw [hc] at this
  exact not_mem_keysD_eraseD d a hd this

end DictEntries

/-! ### The incidence-addition loop and structural preservation -/

theorem addIncidence_edge_data (target : EdgeId) (M : List Node) (s : HG) :
    (addIncidence target s M).1.edge_data = s.edge_data := by
  induction M generalizing s with
  | nil => rfl
  | cons n rest ih =>
    cases hL : lookupD s.node_incidence n with
    | none => simp [addIncidence, hL]
    | some L => simp [addIncidence, hL, ih]

theorem addIncidence_node_data (target : EdgeId) (M : List Node) (s : HG) :
    (addIncidence target s M).1.node_data = s.node_data := by
  induction M generalizing s with
  | nil => rfl
  | cons n rest ih =>
    cases hL : lookupD s.node_incidence n with
    | none => simp [addIncidence, hL]
    | some L => simp [addIncidence, hL, ih]

theorem addIncidence_keys (target : EdgeId) (M : List Node) (s : HG) :
    keysD (addIncidence target s M).1.node_incidence =
      keysD s.node_incidence := by
  induction M generalizing s with
  | nil => rfl
  | cons n rest ih =>
    cases hL : lookupD s.node_incidence n with
    | none => simp [addIncidence, hL]
    | some L =>
      have hc : containsD s.node_incidence n = true := by
        simp [containsD, hL]
      simp only [addIncidence, hL]
      rw [ih]
      exact keysD_assignD_of_contains _ _ _ hc

theorem removeIncidence_keys (target : EdgeId) (M : List Node) (s : HG) :
    keysD (removeIncidence target s M).1.node_incidence =
      keysD s.node_incidence := by
  induction M generalizing s with
  | nil => rfl
  | cons n rest ih =>
    cases hL : lookupD s.node_incidence n with
    | none => simp [removeIncidence, hL]
    | some L =>
      cases hR : setRemove L target with
      | none => simp [removeIncidence, hL, hR]
      | some L1 =>
        have hc : containsD s.node_incidence n = true := by
          simp [containsD, hL]
        simp only [removeIncidence, hL, hR]
        rw [ih]
        exact keysD_assignD_of_contains _ _ _ hc

theorem addIncidence_nodup (target : EdgeId) (M : List Node) (s : HG)
    (h : ∀ p ∈ s.node_incidence, (Prod.snd p).Nodup) :
    ∀ p ∈ (addIncidence target s M).1.node_incidence, (Prod.snd p).Nodup := by
  induction M generalizing s with
  | nil => exact h
  | cons n rest ih =>
    cases hL : lookupD s.node_incidence n with
    | none => simpa [addIncidence, hL] using h
    | some L =>
      have hLnd : L.Nodup := h (n, L) (lookupD_mem _ _ _ hL)
      have h' : ∀ p ∈ assignD s.node_incidence n (setAdd L target),
          (Prod.snd p).Nodup := by
        intro p hp
        rcases mem_assignD hp with hp' | ⟨_, hval⟩
        · exact h p hp'
        · rw [hval]
          exact nodup_setAdd _ _ hLnd
      simpa [addIncidence, hL] using ih _ h'

theorem removeIncidence_nodup (target : EdgeId) (M : List Node) (s : HG)
    (h : ∀ p ∈ s.node_incidence, (Prod.snd p).Nodup) :
    ∀ p ∈ (removeIncidence target s M).1.node_incidence,
      (Prod.snd p).Nodup := by
  induction M generalizing s with
  | nil => exact h
  | cons n rest ih =>
    cases hL : lookupD s.node_incidence n with
    | none => simpa [removeIncidence, hL] using h
    | some L =>
      cases hR : setRemove L target with
      | none => simpa [removeIncidence, hL, hR] using h
      | some L1 =>
        have hLnd : L.Nodup := h (n, L) (lookupD_mem _ _ _ hL)
        have hL1nd : L1.Nodup := nodup_setRemove _ _ _ hLnd hR
        have h' : ∀ p ∈ assignD s.node_incidence n L1,
            (Prod.snd p).Nodup := by
          intro p hp
          rcases mem_assignD hp with hp' | ⟨_, hval⟩
          · exact h p hp'
          · rw [hval]
            exact hL1nd
        simpa [removeIncidence, hL, hR] using ih _ h'

/-- When every listed member has an incidence entry, the addition loop
completes, adds the target to exactly the listed members' sets and
leaves everything else unchanged. -/
theorem addIncidence_spec (target : EdgeId) (M : List Node) (s : HG)
    (hM : M.Nodup)
    (hpre : ∀ n ∈ M, ∃ L, lookupD s.node_incidence n = some L) :
    (addIncidence target s M).2 = none ∧
    (∀ n, n ∉ M → lookupD (addIncidence target s M).1.node_incidence n =
        lookupD s.node_incidence n) ∧
    (∀ n ∈ M, ∀ L, lookupD s.node_incidence n = some L →
        lookupD (addIncidence target s M).1.node_incidence n =
          some (setAdd L target)) := by
  induction M generalizing s with
  | nil =>
    refine ⟨rfl, fun n _ => rfl, fun n hn => absurd hn (by simp)⟩
  | cons n rest ih =>
    obtain ⟨L, hL⟩ := hpre n (by simp)
    have hnodup := List.nodup_cons.mp hM
    have hstep : addIncidence target s (n :: rest) =
        addIncidence target
          { s with node_incidence := assignD s.node_incidence n (setAdd L target) } rest := by
      simp [addIncidence, hL]
    set s1 : HG :=
      { s with node_incidence := assignD s.node_incidence n (setAdd L target) }
      with hs1
    have hpre1 : ∀ m ∈ rest, ∃ L1, lookupD s1.node_incidence m = some L1 := by
      intro m hm
      have hmn : n ≠ m := fun hc => hnodup.1 (hc ▸ hm)
      obtain ⟨L1, hL1⟩ := hpre m (by simp [hm])
      refine ⟨L1, ?_⟩
      rw [hs1]
      simpa [lookupD_assignD_ne _ _ _ _ hmn] using hL1
    obtain ⟨hok, hout, hin⟩ := ih s1 hnodup.2 hpre1
    refine ⟨by rw [hstep]; exact hok, ?_, ?_⟩
    · intro m hm
      have hmn : n ≠ m := fun hc => hm (by simp [hc])
      have hmr : m ∉ rest := fun hc => hm (by simp [hc])
      rw [hstep, hout m hmr, hs1]
      simpa using lookupD_assignD_ne s.node_incidence n (setAdd L target) m hmn
    · intro m hm L0 hL0
      rcases List.mem_cons.mp hm with rfl | hmr
      · have hLL : L0 = L := Option.some.inj (hL0.symm.trans hL)
        subst hLL
        rw [hstep, hout m hnodup.1, hs1]
        simp
      · have hmn : n ≠ m := fun hc => hnodup.1 (hc ▸ hmr)
        have hL0' : lookupD s1.node_incidence m = some L0 := by
          rw [hs1]
          simpa [lookupD_assignD_ne _ _ _ _ hmn] using hL0
        rw [hstep]
        exact hin m hmr L0 hL0'

/-! ### One iteration of the `remove_node` edge loop -/

/-- Effect of `removeNodeEdge` on a state where the edge is registered
with data `ed`, sits in the incidence set of every remaining member,
and the remaining members are duplicate-free: the iteration completes,
`e` is deleted and (when more than one member remains) the rewritten
edge is assigned `e`'s data and added to each remaining member's set,
from which `e` is then removed. -/
theorem removeNodeEdge_spec (node : Node) (s : HG) (e : EdgeId) (ed : Attrs)
    (ha : lookupD s.edge_data e = some ed)
    (hb : ∀ nbr ∈ EdgeId.members (rewriteEdge e node),
      ∃ L, lookupD s.node_incidence nbr = some L ∧ e ∈ L)
    (hc : (EdgeId.members (rewriteEdge e node)).Nodup) :
    (removeNodeEdge node s e).2 = none ∧
    (removeNodeEdge node s e).1.node_data = s.node_data ∧
    (removeNodeEdge node s e).1.edge_data =
      (if 1 < (rewriteEdge e node).size then
        assignD (eraseD s.edge_data e) (rewriteEdge e node) ed
      else eraseD s.edge_data e) ∧
    keysD (removeNodeEdge node s e).1.node_incidence =
      keysD s.node_incidence ∧
    (∀ n, n ∉ EdgeId.members (rewriteEdge e node) →
      lookupD (removeNodeEdge node s e).1.node_incidence n =
        lookupD s.node_incidence n) ∧
    (∀ n ∈ EdgeId.members (rewriteEdge e node), ∀ L,
      lookupD s.node_incidence n = some L →
      lookupD (removeNodeEdge node s e).1.node_incidence n =
        some ((if 1 < (rewriteEdge e node).size then
          setAdd L (rewriteEdge e node) else L).erase e)) := by
  by_cases hbig : 1 < (rewriteEdge e node).size
  · have hpreA : ∀ n ∈ EdgeId.members (rewriteEdge e node),
        ∃ L, lookupD ({ s with edge_data := assignD (eraseD s.edge_data e) (rewriteEdge e node) ed } :
            HG).node_incidence n = some L := by
      intro n hn
      obtain ⟨L, hL, _⟩ := hb n hn
      exact ⟨L, hL⟩
    obtain ⟨hokA, houtA, hinA⟩ :=
      addIncidence_spec (rewriteEdge e node)
        (EdgeId.members (rewriteEdge e node))
        { s with edge_data := assignD (eraseD s.edge_data e) (rewriteEdge e node) ed } hc hpreA
    rcases hPA : addIncidence (rewriteEdge e node)
        { s with edge_data := assignD (eraseD s.edge_data e) (rewriteEdge e node) ed }
        (EdgeId.members (rewriteEdge e node)) with ⟨s2, errA⟩
    rw [hPA] at hokA houtA hinA
    simp only at hokA houtA hinA
    subst hokA
    have hres : removeNodeEdge node s e =
        removeIncidence e s2 (EdgeId.members (rewriteEdge e node)) := by
      simp only [removeNodeEdge, ha, if_pos hbig]
      rw [hPA]
    have hs2ed : s2.edge_data =
        assignD (eraseD s.edge_data e) (rewriteEdge e node) ed := by
      have hx := addIncidence_edge_data (rewriteEdge e node)
        (EdgeId.members (rewriteEdge e node))
        { s with edge_data := assignD (eraseD s.edge_data e) (rewriteEdge e node) ed }
      rw [hPA] at hx
      exact hx
    have hs2nd : s2.node_data = s.node_data := by
      have hx := addIncidence_node_data (rewriteEdge e node)
        (EdgeId.members (rewriteEdge e node))
        { s with edge_data := assignD (eraseD s.edge_data e) (rewriteEdge e node) ed }
      rw [hPA] at hx
      exact hx
    have hs2keys : keysD s2.node_incidence = keysD s.node_incidence := by
      have hx := addIncidence_keys (rewriteEdge e node)
        (EdgeId.members (rewriteEdge e node))
        { s with edge_data := assignD (eraseD s.edge_data e) (rewriteEdge e node) ed }
      rw [hPA] at hx
      exact hx
    have hpreR : ∀ n ∈ EdgeId.members (rewriteEdge e node),
        ∃ L, lookupD s2.node_incidence n = some L ∧ e ∈ L := by
      intro n hn
      obtain ⟨L, hL, heL⟩ := hb n hn
      refine ⟨setAdd L (rewriteEdge e node), hinA n hn L hL, ?_⟩
      rw [mem_setAdd]
      exact Or.inl heL
    obtain ⟨hokR, houtR, hinR⟩ :=
      removeIncidence_spec e (EdgeId.members (rewriteEdge e node)) s2 hc hpreR
    refine ⟨by rw [hres]; exact hokR, ?_, ?_, ?_, ?_, ?_⟩
    · rw [hres, removeIncidence_node_data, hs2nd]
    · rw [hres, removeIncidence_edge_data, hs2ed, if_pos hbig]
    · rw [hres, removeIncidence_keys, hs2keys]
    · intro n hn
      rw [hres, houtR n hn]
      exact houtA n hn
    · intro n hn L hL
      rw [hres, if_pos hbig]
      exact hinR n hn (setAdd L (rewriteEdge e node)) (hinA n hn L hL)
  · have hpreR : ∀ n ∈ EdgeId.members (rewriteEdge e node),
        ∃ L, lookupD ({ s with edge_data := eraseD s.edge_data e } :
          HG).node_incidence n = some L ∧ e ∈ L := by
      intro n hn
      exact hb n hn
    obtain ⟨hokR, houtR, hinR⟩ :=
      removeIncidence_spec e (EdgeId.members (rewriteEdge e node))
        { s with edge_data := eraseD s.edge_data e } hc hpreR
    have hres : removeNodeEdge node s e =
        removeIncidence e { s with edge_data := eraseD s.edge_data e }
          (EdgeId.members (rewriteEdge e node)) := by
      simp only [removeNodeEdge, ha, if_neg hbig]
    refine ⟨by rw [hres]; exact hokR, ?_, ?_, ?_, ?_, ?_⟩
    · rw [hres, removeIncidence_node_data]
    · rw [hres, removeIncidence_edge_data, if_neg hbig]
    · rw [hres, removeIncidence_keys]
    · intro n hn
      rw [hres]
      exact houtR n hn
    · intro n hn L hL
      rw [hres, if_neg hbig]
      exact hinR n hn L hL

theorem removeNodeEdge_nodup (node : Node) (s : HG) (e : EdgeId)
    (h : ∀ p ∈ s.node_incidence, (Prod.snd p).Nodup) :
    ∀ p ∈ (removeNodeEdge node s e).1.node_incidence, (Prod.snd p).Nodup := by
  cases ha : lookupD s.edge_data e with
  | none => simpa [removeNodeEdge, ha] using h
  | some ed =>
    by_cases hbig : 1 < (rewriteEdge e node).size
    · rcases hPA : addIncidence (rewriteEdge e node)
          { s with edge_data := assignD (eraseD s.edge_data e) (rewriteEdge e node) ed }
          ((rewriteEdge e node).nodes.members) with ⟨s2, errA⟩
      have hnodA := addIncidence_nodup (rewriteEdge e node)
        ((rewriteEdge e node).nodes.members)
        { s with edge_data := assignD (eraseD s.edge_data e) (rewriteEdge e node) ed } h
      rw [hPA] at hnodA
      cases errA with
      | none =>
        have hres : removeNodeEdge node s e =
            removeIncidence e s2 ((rewriteEdge e node).nodes.members) := by
          simp only [removeNodeEdge, ha, EdgeId.members, if_pos hbig]
          rw [hPA]
        rw [hres]
        exact removeIncidence_nodup _ _ _ hnodA
      | some errv =>
        have hres : removeNodeEdge node s e = (s2, some errv) := by
          simp only [removeNodeEdge, ha, EdgeId.members, if_pos hbig]
          rw [hPA]
        rw [hres]
        exact hnodA
    · have hres : removeNodeEdge node s e =
          removeIncidence e { s with edge_data := eraseD s.edge_data e }
            ((rewriteEdge e node).nodes.members) := by
        simp only [removeNodeEdge, ha, EdgeId.members, if_neg hbig]
      rw [hres]
      exact removeIncidence_nodup _ _ _ h

/-! ### Rewritten-edge helpers -/

theorem rewriteEdge_members (e : EdgeId) (node : Node) :
    EdgeId.members (rewriteEdge e node) =
      (EdgeId.members e).filter (fun n => n ≠ node) := by
  obtain ⟨nodes, ek⟩ := e
  cases nodes <;> rfl

theorem mem_rewriteEdge_members {e : EdgeId} {node x : Node} :
    x ∈ EdgeId.members (rewriteEdge e node) ↔
      x ∈ EdgeId.members e ∧ x ≠ node := by
  rw [rewriteEdge_members, List.mem_filter]
  simp

theorem node_not_mem_rewrite (e : EdgeId) (node : Node) :
    node ∉ EdgeId.members (rewriteEdge e node) := by
  rw [mem_rewriteEdge_members]
  simp

theorem rewriteEdge_ne_of_node_mem {e x : EdgeId} {node : Node}
    (hx : node ∈ EdgeId.members x) : rewriteEdge e node ≠ x := by
  intro hc
  exact node_not_mem_rewrite e node (hc ▸ hx)

theorem rewriteEdge_edgekey (e : EdgeId) (node : Node) :
    (rewriteEdge e node).edgekey = e.edgekey := by
  obtain ⟨nodes, ek⟩ := e
  cases nodes <;> rfl

theorem incContains_congr {s s' : HG} {n : Node}
    (h : lookupD s'.node_incidence n = lookupD s.node_incidence n)
    (x : EdgeId) : incContains s' n x = incContains s n x := by
  unfold incContains
  rw [h]

theorem mem_keys_eraseD_iff {κ β : Type} [DecidableEq κ]
    {d : List (κ × β)} (hnd : (keysD d).Nodup) (a id : κ) :
    id ∈ keysD (eraseD d a) ↔ id ≠ a ∧ id ∈ keysD d := by
  rw [keysD_eraseD]
  exact hnd.mem_erase_iff

theorem incContains_eq_false_iff (g : HG) (n : Node) (x : EdgeId) :
    incContains g n x = false ↔
      ∀ L, lookupD g.node_incidence n = some L → x ∉ L := by
  unfold incContains
  cases h : lookupD g.node_incidence n <;> simp

/-! ### The `remove_node` edge loop -/

/-- Running the remaining suffix of the edge loop preserves the loop
invariant and completes, provided every snapshot edge contains the
node, is registered, and rewrites to a duplicate-free member list. -/
theorem removeNodeLoop_spec (g0 : HG) (node : Node) (L0 : List EdgeId)
    (HWF : WF g0)
    (HL0 : L0.Nodup)
    (Hnode : ∀ e ∈ L0, node ∈ EdgeId.members e)
    (Hrw : ∀ e ∈ L0, (EdgeId.members (rewriteEdge e node)).Nodup)
    (Hed0 : ∀ e ∈ L0, ∃ d, lookupD g0.edge_data e = some d) :
    ∀ (R P : List EdgeId) (s : HG), NodeLoopInv g0 node L0 P R s →
    (removeNodeLoop node s R).2 = none ∧
    NodeLoopInv g0 node L0 (P ++ R) [] (removeNodeLoop node s R).1 := by
  intro R
  induction R with
  | nil =>
    intro P s hinv
    refine ⟨rfl, ?_⟩
    simpa using hinv
  | cons e rest ih =>
    intro P s hinv
    have hsplit : L0 = P ++ e :: rest := hinv.split
    have hndL0 : (P ++ e :: rest).Nodup := hsplit ▸ HL0
    have heL0 : e ∈ L0 := by
      rw [hsplit]
      simp
    have hrestL0 : ∀ x ∈ rest, x ∈ L0 := by
      intro x hx
      rw [hsplit]
      simp [hx]
    have hPL0 : ∀ x ∈ P, x ∈ L0 := by
      intro x hx
      rw [hsplit]
      simp [hx]
    have heP : e ∉ P := by
      intro hc
      have hdisj := List.disjoint_of_nodup_append hndL0
      exact hdisj hc (by simp)
    have heRest : e ∉ rest := by
      have h2 := hndL0.of_append_right
      exact (List.nodup_cons.mp h2).1
    obtain ⟨d0, hd0⟩ := Hed0 e heL0
    have hd : lookupD s.edge_data e = some d0 := by
      rw [hinv.rem_data e (by simp)]
      exact hd0
    have hb : ∀ nbr ∈ EdgeId.members (rewriteEdge e node),
        ∃ L, lookupD s.node_incidence nbr = some L ∧ e ∈ L := by
      intro nbr hnbr
      exact (incContains_iff s nbr e).mp (hinv.rem_inc e (by simp) nbr hnbr)
    obtain ⟨Sok, Snd, Sed, Skeys, Sout, Sin⟩ :=
      removeNodeEdge_spec node s e d0 hd hb (Hrw e heL0)
    rcases hstep : removeNodeEdge node s e with ⟨s1, err1⟩
    rw [hstep] at Sok Snd Sed Skeys Sout Sin
    simp only at Sok Snd Sed Skeys Sout Sin
    subst Sok
    have hloop : removeNodeLoop node s (e :: rest) =
        removeNodeLoop node s1 rest := by
      simp [removeNodeLoop, hstep]
    have hnode_e : node ∈ EdgeId.members e := Hnode e heL0
    have hrw_ne : ∀ x ∈ L0, rewriteEdge e node ≠ x := by
      intro x hx
      exact rewriteEdge_ne_of_node_mem (Hnode x hx)
    have hrw_ne_e : rewriteEdge e node ≠ e := hrw_ne e heL0
    have hkeys1 : ∀ id, id ∈ keysD s1.edge_data ↔
        ((id ≠ e ∧ id ∈ keysD s.edge_data) ∨
          (1 < (rewriteEdge e node).size ∧ id = rewriteEdge e node)) := by
      intro id
      by_cases hbig : 1 < (rewriteEdge e node).size
      · rw [Sed, if_pos hbig, mem_keysD_assignD,
          mem_keys_eraseD_iff hinv.ed_nodup]
        constructor
        · rintro (h | h)
          · exact Or.inl h
          · exact Or.inr ⟨hbig, h⟩
        · rintro (h | h)
          · exact Or.inl h
          · exact Or.inr h.2
      · rw [Sed, if_neg hbig, mem_keys_eraseD_iff hinv.ed_nodup]
        constructor
        · exact Or.inl
        · rintro (h | h)
          · exact h
          · exact absurd h.1 hbig
    have hlook1 : ∀ id, id ≠ e → id ≠ rewriteEdge e node →
        lookupD s1.edge_data id = lookupD s.edge_data id := by
      intro id hne hnrw
      by_cases hbig : 1 < (rewriteEdge e node).size
      · rw [Sed, if_pos hbig,
          lookupD_assignD_ne _ _ _ _ (fun hc => hnrw hc.symm),
          lookupD_eraseD_ne _ _ _ (fun hc => hne hc.symm)]
      · rw [Sed, if_neg hbig,
          lookupD_eraseD_ne _ _ _ (fun hc => hne hc.symm)]
    have hs1keysnodup : (keysD s1.node_incidence).Nodup := by
      rw [Skeys, hinv.ni_keys]
      exact HWF.ni_nodup
    have hweaken : ∀ id, (∃ x ∈ P, 1 < (rewriteEdge x node).size ∧
        id = rewriteEdge x node) →
        ∃ x ∈ P ++ [e], 1 < (rewriteEdge x node).size ∧
          id = rewriteEdge x node := by
      rintro id ⟨x, hx, h1, h2⟩
      exact ⟨x, by simp [hx], h1, h2⟩
    have hinv1 : NodeLoopInv g0 node L0 (P ++ [e]) rest s1 := by
      refine ⟨?_, ?_, ?_, ?_, ?_, ?_, ?_, ?_, ?_, ?_, ?_, ?_, ?_, ?_, ?_, ?_⟩
      · rw [hsplit]
        simp
      · rw [Snd, hinv.nd]
      · rw [Skeys, hinv.ni_keys]
      · have hx := removeNodeEdge_nodup node s e hinv.ni_nodup
        rw [hstep] at hx
        exact hx
      · by_cases hbig : 1 < (rewriteEdge e node).size
        · rw [Sed, if_pos hbig]
          exact nodup_keysD_assignD _ _ _ (nodup_keysD_eraseD _ _ hinv.ed_nodup)
        · rw [Sed, if_neg hbig]
          exact nodup_keysD_eraseD _ _ hinv.ed_nodup
      · intro x hx
        have hxe : x ≠ e := fun hc => heRest (hc ▸ hx)
        have hxrw : x ≠ rewriteEdge e node :=
          fun hc => hrw_ne x (hrestL0 x hx) hc.symm
        rw [hlook1 x hxe hxrw]
        exact hinv.rem_data x (by simp [hx])
      · intro x hx nbr hnbr
        by_cases hmem : nbr ∈ EdgeId.members (rewriteEdge e node)
        · obtain ⟨L, hL, heLl⟩ := hb nbr hmem
          have hnew := Sin nbr hmem L hL
          have hxe : x ≠ e := fun hc => heRest (hc ▸ hx)
          have hxL : x ∈ L := by
            have hxc := (incContains_iff s nbr x).mp
              (hinv.rem_inc x (by simp [hx]) nbr hnbr)
            obtain ⟨L2, hL2, hxL2⟩ := hxc
            rw [hL] at hL2
            exact (Option.some.inj hL2) ▸ hxL2
          rw [incContains_iff]
          refine ⟨_, hnew, ?_⟩
          rw [List.mem_erase_of_ne hxe]
          by_cases hbig : 1 < (rewriteEdge e node).size
          · rw [if_pos hbig, mem_setAdd]
            exact Or.inl hxL
          · rw [if_neg hbig]
            exact hxL
        · rw [incContains_congr (Sout nbr hmem) x]
          exact hinv.rem_inc x (by simp [hx]) nbr hnbr
      · intro id hid hnodeid
        rcases (hkeys1 id).mp hid with ⟨hne, hold⟩ | ⟨_, hrweq⟩
        · have hmemR := hinv.node_only_rem id hold hnodeid
          rcases List.mem_cons.mp hmemR with rfl | h
          · exact absurd rfl hne
          · exact h
        · exact absurd (hrweq ▸ hnodeid) (node_not_mem_rewrite e node)
      · intro x hx
        rcases List.mem_append.mp hx with hxP | hxe
        · intro hc
          rcases (hkeys1 x).mp hc with ⟨_, hold⟩ | ⟨_, hrweq⟩
          · exact hinv.done_ed x hxP hold
          · exact hrw_ne x (hPL0 x hxP) hrweq.symm
        · have hxeq : x = e := by simpa using hxe
          subst hxeq
          intro hc
          rcases (hkeys1 x).mp hc with ⟨hne, _⟩ | ⟨_, hrweq⟩
          · exact hne rfl
          · exact hrw_ne x heL0 hrweq.symm
      · intro x hx y hy
        rcases List.mem_append.mp hx with hxP | hxe
        · by_cases hmem : y ∈ EdgeId.members (rewriteEdge e node)
          · obtain ⟨L, hL, heLl⟩ := hb y hmem
            have hnew := Sin y hmem L hL
            have hxnotL : x ∉ L :=
              (incContains_eq_false_iff s y x).mp
                (hinv.done_inc x hxP y hy) L hL
            rw [incContains_eq_false_iff]
            intro L2 hL2
            rw [hnew] at hL2
            have hL2e := Option.some.inj hL2
            subst hL2e
            intro hxin
            have hxC := List.mem_of_mem_erase hxin
            by_cases hbig : 1 < (rewriteEdge e node).size
            · rw [if_pos hbig, mem_setAdd] at hxC
              rcases hxC with hxL | hxrw
              · exact hxnotL hxL
              · exact hrw_ne x (hPL0 x hxP) hxrw.symm
            · rw [if_neg hbig] at hxC
              exact hxnotL hxC
          · rw [incContains_congr (Sout y hmem) x]
            exact hinv.done_inc x hxP y hy
        · have hxeq : x = e := by simpa using hxe
          subst hxeq
          by_cases hmem : y ∈ EdgeId.members (rewriteEdge x node)
          · obtain ⟨L, hL, heLl⟩ := hb y hmem
            have hnew := Sin y hmem L hL
            have hLnd : L.Nodup := hinv.ni_nodup (y, L) (lookupD_mem _ _ _ hL)
            rw [incContains_eq_false_iff]
            intro L2 hL2
            rw [hnew] at hL2
            have hL2e := Option.some.inj hL2
            subst hL2e
            by_cases hbig : 1 < (rewriteEdge x node).size
            · rw [if_pos hbig]
              exact (nodup_setAdd L _ hLnd).not_mem_erase
            · rw [if_neg hbig]
              exact hLnd.not_mem_erase
          · rw [incContains_congr (Sout y hmem) x]
            rw [incContains_eq_false_iff]
            intro L2 hL2
            intro hxin
            have hx2 := hinv.inc_mem_s (y, L2) (lookupD_mem _ _ _ hL2) x hxin
            exact hmem (mem_rewriteEdge_members.mpr ⟨hx2.1, hy⟩)
      · intro x hx hbigx
        rcases List.mem_append.mp hx with hxP | hxe
        · have hold := hinv.big_present x hxP hbigx
          have hne : rewriteEdge x node ≠ e :=
            rewriteEdge_ne_of_node_mem hnode_e
          exact (hkeys1 _).mpr (Or.inl ⟨hne, hold⟩)
        · have hxeq : x = e := by simpa using hxe
          subst hxeq
          exact (hkeys1 _).mpr (Or.inr ⟨hbigx, rfl⟩)
      · intro id hid
        rcases (hkeys1 id).mp hid with ⟨_, hold⟩ | ⟨hbig, hrweq⟩
        · rcases hinv.ed_bound id hold with h | h
          · exact Or.inl h
          · exact Or.inr (hweaken id h)
        · exact Or.inr ⟨e, by simp, hbig, hrweq⟩
      · intro p hp id hid
        have hlookp := lookupD_of_mem_nodup hs1keysnodup hp
        by_cases hmem : p.1 ∈ EdgeId.members (rewriteEdge e node)
        · obtain ⟨L, hL, heLl⟩ := hb p.1 hmem
          have hnew := Sin p.1 hmem L hL
          have hp2 : p.2 = ((if 1 < (rewriteEdge e node).size then
              setAdd L (rewriteEdge e node) else L).erase e) :=
            Option.some.inj (hlookp.symm.trans hnew)
          rw [hp2] at hid
          have hidC := List.mem_of_mem_erase hid
          by_cases hbig : 1 < (rewriteEdge e node).size
          · rw [if_pos hbig, mem_setAdd] at hidC
            rcases hidC with hidL | hidrw
            · rcases hinv.inc_bound (p.1, L) (lookupD_mem _ _ _ hL) id hidL
                with h | h
              · exact Or.inl h
              · exact Or.inr (hweaken id h)
            · exact Or.inr ⟨e, by simp, hbig, hidrw⟩
          · rw [if_neg hbig] at hidC
            rcases hinv.inc_bound (p.1, L) (lookupD_mem _ _ _ hL) id hidC
              with h | h
            · exact Or.inl h
            · exact Or.inr (hweaken id h)
        · have hlooks : lookupD s.node_incidence p.1 = some p.2 :=
            (Sout p.1 hmem).symm.trans hlookp
          rcases hinv.inc_bound (p.1, p.2) (lookupD_mem _ _ _ hlooks) id hid
            with h | h
          · exact Or.inl h
          · exact Or.inr (hweaken id h)
      · intro id hid n hn hne
        rcases (hkeys1 id).mp hid with ⟨hide, hold⟩ | ⟨hbig, hrweq⟩
        · obtain ⟨L2, hL2, hidL2⟩ := (incContains_iff s n id).mp
            (hinv.edge_mem_s id hold n hn hne)
          by_cases hmem : n ∈ EdgeId.members (rewriteEdge e node)
          · have hnew := Sin n hmem L2 hL2
            rw [incContains_iff]
            refine ⟨_, hnew, ?_⟩
            rw [List.mem_erase_of_ne hide]
            by_cases hbig : 1 < (rewriteEdge e node).size
            · rw [if_pos hbig, mem_setAdd]
              exact Or.inl hidL2
            · rw [if_neg hbig]
              exact hidL2
          · rw [incContains_congr (Sout n hmem) id]
            rw [incContains_iff]
            exact ⟨L2, hL2, hidL2⟩
        · subst hrweq
          have hmem : n ∈ EdgeId.members (rewriteEdge e node) := hn
          obtain ⟨L, hL, heLl⟩ := hb n hmem
          have hnew := Sin n hmem L hL
          rw [incContains_iff]
          refine ⟨_, hnew, ?_⟩
          rw [List.mem_erase_of_ne hrw_ne_e, if_pos hbig, mem_setAdd]
          exact Or.inr rfl
      · intro p hp id hid
        have hlookp := lookupD_of_mem_nodup hs1keysnodup hp
        by_cases hmem : p.1 ∈ EdgeId.members (rewriteEdge e node)
        · obtain ⟨L, hL, heLl⟩ := hb p.1 hmem
          have hnew := Sin p.1 hmem L hL
          have hLnd : L.Nodup := hinv.ni_nodup (p.1, L) (lookupD_mem _ _ _ hL)
          have hp2 : p.2 = ((if 1 < (rewriteEdge e node).size then
              setAdd L (rewriteEdge e node) else L).erase e) :=
            Option.some.inj (hlookp.symm.trans hnew)
          rw [hp2] at hid
          have hCnd : (if 1 < (rewriteEdge e node).size then
              setAdd L (rewriteEdge e node) else L).Nodup := by
            by_cases hbig : 1 < (rewriteEdge e node).size
            · rw [if_pos hbig]
              exact nodup_setAdd L _ hLnd
            · rw [if_neg hbig]
              exact hLnd
          have hide : id ≠ e := by
            intro hc
            subst hc
            exact hCnd.not_mem_erase hid
          have hidC := List.mem_of_mem_erase hid
          by_cases hbig : 1 < (rewriteEdge e node).size
          · rw [if_pos hbig, mem_setAdd] at hidC
            rcases hidC with hidL | hidrw
            · obtain ⟨hm1, hm2⟩ :=
                hinv.inc_mem_s (p.1, L) (lookupD_mem _ _ _ hL) id hidL
              refine ⟨hm1, fun hne => ?_⟩
              exact (hkeys1 _).mpr (Or.inl ⟨hide, hm2 hne⟩)
            · subst hidrw
              refine ⟨hmem, fun _ => ?_⟩
              exact (hkeys1 _).mpr (Or.inr ⟨hbig, rfl⟩)
          · rw [if_neg hbig] at hidC
            obtain ⟨hm1, hm2⟩ :=
              hinv.inc_mem_s (p.1, L) (lookupD_mem _ _ _ hL) id hidC
            refine ⟨hm1, fun hne => ?_⟩
            exact (hkeys1 _).mpr (Or.inl ⟨hide, hm2 hne⟩)
        · have hlooks : lookupD s.node_incidence p.1 = some p.2 :=
            (Sout p.1 hmem).symm.trans hlookp
          obtain ⟨hm1, hm2⟩ :=
            hinv.inc_mem_s (p.1, p.2) (lookupD_mem _ _ _ hlooks) id hid
          refine ⟨hm1, fun hne => ?_⟩
          have hide : id ≠ e := by
            intro hc
            subst hc
            exact hmem (mem_rewriteEdge_members.mpr ⟨hm1, hne⟩)
          exact (hkeys1 _).mpr (Or.inl ⟨hide, hm2 hne⟩)
      · intro x hx hbigx huniq
        rcases List.mem_append.mp hx with hxP | hxe
        · have hne1 : rewriteEdge x node ≠ e :=
            rewriteEdge_ne_of_node_mem hnode_e
          have hne2 : rewriteEdge x node ≠ rewriteEdge e node := by
            intro hc
            have hxe := huniq e heL0 hc.symm
            exact heP (hxe ▸ hxP)
          rw [hlook1 _ hne1 hne2]
          exact hinv.data_pres x hxP hbigx huniq
        · have hxeq : x = e := by simpa using hxe
          subst hxeq
          rw [Sed, if_pos hbigx, lookupD_assignD_self, hd0]
    obtain ⟨hok2, hinv2⟩ := ih (P ++ [e]) s1 hinv1
    rw [hloop]
    refine ⟨hok2, ?_⟩
    have hPP : (P ++ [e]) ++ rest = P ++ e :: rest := by
      simp
    rw [← hPP]
    exact hinv2

/-- `remove_node` on a well-formed invariant-satisfying graph with the
node present and every incident edge rewriting to a duplicate-free
member list: it completes, and the returned graph is the loop's final
state with the node's entries dropped, satisfying the full loop
invariant with every snapshot edge processed. -/
theorem remove_node_spec (g0 : HG) (node : Node) (L0 : List EdgeId)
    (HWF : WF g0) (HInv : Inv g0)
    (hL0 : lookupD g0.node_incidence node = some L0)
    (hpresent : containsD g0.node_data node = true)
    (Hrw : ∀ e ∈ L0, (EdgeId.members (rewriteEdge e node)).Nodup) :
    ∃ sf, remove_node g0 node =
        ({ sf with node_incidence := eraseD sf.node_incidence node }, none) ∧
      NodeLoopInv g0 node L0 L0 [] sf := by
  have HL0 : L0.Nodup := HWF.inc_nodup_lookup hL0
  have Hnode : ∀ e ∈ L0, node ∈ EdgeId.members e :=
    fun e he => (HInv.inc_mem_lookup hL0 he).2
  have Hed0 : ∀ e ∈ L0, ∃ d, lookupD g0.edge_data e = some d := by
    intro e he
    have h1 : e ∈ keysD g0.edge_data := (HInv.inc_mem_lookup hL0 he).1
    have h2 := (lookupD_isSome_iff_mem_keysD g0.edge_data e).mpr h1
    cases hd : lookupD g0.edge_data e with
    | none => rw [hd] at h2; simp at h2
    | some d => exact ⟨d, rfl⟩
  have inv0 : NodeLoopInv g0 node L0 [] L0
      { g0 with node_data := eraseD g0.node_data node } := by
    refine ⟨?_, ?_, ?_, ?_, ?_, ?_, ?_, ?_, ?_, ?_, ?_, ?_, ?_, ?_, ?_, ?_⟩
    · simp
    · rfl
    · rfl
    · exact HWF.inc_nodup
    · exact HWF.ed_nodup
    · intro e he
      rfl
    · intro e he nbr hnbr
      obtain ⟨d, hd⟩ := Hed0 e he
      obtain ⟨hmem, _⟩ := mem_rewriteEdge_members.mp hnbr
      obtain ⟨L, hlook, heL⟩ := HInv.edge_mem_lookup hd hmem
      exact (incContains_iff _ nbr e).mpr ⟨L, hlook, heL⟩
    · intro id hid hnodeid
      have h2 := (lookupD_isSome_iff_mem_keysD g0.edge_data id).mpr hid
      cases hd : lookupD g0.edge_data id with
      | none => rw [hd] at h2; simp at h2
      | some d =>
        obtain ⟨L, hlook, hidL⟩ := HInv.edge_mem_lookup hd hnodeid
        rw [hL0] at hlook
        exact (Option.some.inj hlook) ▸ hidL
    · intro e he
      exact absurd he (List.not_mem_nil e)
    · intro e he
      exact absurd he (List.not_mem_nil e)
    · intro e he
      exact absurd he (List.not_mem_nil e)
    · intro id hid
      exact Or.inl hid
    · intro p hp id hid
      refine Or.inl ?_
      have hlook := lookupD_of_mem_nodup HWF.ni_nodup hp
      exact (incContains_iff _ _ _).mpr ⟨p.2, hlook, hid⟩
    · intro id hid n hn hne
      have h2 := (lookupD_isSome_iff_mem_keysD g0.edge_data id).mpr hid
      cases hd : lookupD g0.edge_data id with
      | none => rw [hd] at h2; simp at h2
      | some d =>
        obtain ⟨L, hlook, hidL⟩ := HInv.edge_mem_lookup hd hn
        exact (incContains_iff _ n id).mpr ⟨L, hlook, hidL⟩
    · intro p hp id hid
      obtain ⟨h1, h2⟩ := HInv.inc_mem p hp id hid
      exact ⟨h2, fun _ => h1⟩
    · intro e he
      exact absurd he (List.not_mem_nil e)
  obtain ⟨hok, hinvf⟩ := removeNodeLoop_spec g0 node L0 HWF HL0 Hnode Hrw
    Hed0 L0 []
    { g0 with node_data := eraseD g0.node_data node } inv0
  rcases hrun : removeNodeLoop node
      { g0 with node_data := eraseD g0.node_data node } L0 with ⟨sf, err⟩
  rw [hrun] at hok hinvf
  simp only at hok hinvf
  subst hok
  refine ⟨sf, ?_, by simpa using hinvf⟩
  simp only [remove_node, hpresent, if_true,
    show lookupD ({ g0 with node_data := eraseD g0.node_data node } :
      HG).node_incidence node = some L0 from hL0, hrun]

/-! ### Claim C1 -/

/-- Claim C1, as stated, is false: node 1 is present in the graph built
by `add_edge((1,2,2))`, yet `remove_node(1)` raises `KeyError` — the
rewritten edge `(2,2)` keeps two members, and the trailing incidence
cleanup traverses member 2 twice, failing on the second
`node_incidence[2].remove(e)`. -/
theorem claim_C1_counterexample :
    containsD dupTailGraph.node_data 1 = true ∧
    (remove_node dupTailGraph 1).2 = some PyErr.keyError := by
  decide

/-- Claim C1 amended: on a well-formed invariant-satisfying graph, for
a present node all of whose incident edges keep a duplicate-free member
list after the node is excluded, `remove_node` succeeds; afterwards the
node is gone from both node maps, no registered edge has it among its
members, every incident edge is deleted from the edge-attribute map and
from every incidence set, every incident edge with at least 2 remaining
members is replaced by the rewritten edge (same discriminator and
member kind), whose stored attributes are the original edge's —
replacing, not `add_edge`-merging, those of any pre-existing edge of
the same identity (stated here for identities with a unique producer) —
and every incident edge reduced below 2 members is not reinserted:
when its rewritten identity was not already registered it appears in no
edge map and no incidence set. -/
theorem claim_C1_amended (g : HG) (node : Node) (L0 : List EdgeId)
    (HWF : WF g) (HInv : Inv g)
    (hL0 : lookupD g.node_incidence node = some L0)
    (hpresent : containsD g.node_data node = true)
    (Hrw : ∀ e ∈ L0, (EdgeId.members (rewriteEdge e node)).Nodup) :
    (remove_node g node).2 = none ∧
    (lookupD (remove_node g node).1.node_data node = none ∧
      lookupD (remove_node g node).1.node_incidence node = none) ∧
    (∀ id ∈ keysD (remove_node g node).1.edge_data,
      node ∉ EdgeId.members id) ∧
    (∀ e ∈ L0, 1 < (rewriteEdge e node).size →
      rewriteEdge e node ∈ keysD (remove_node g node).1.edge_data ∧
      (rewriteEdge e node).edgekey = e.edgekey ∧
      ((∀ e2 ∈ L0, rewriteEdge e2 node = rewriteEdge e node → e2 = e) →
        lookupD (remove_node g node).1.edge_data (rewriteEdge e node) =
          lookupD g.edge_data e)) ∧
    (∀ e ∈ L0, e ∉ keysD (remove_node g node).1.edge_data ∧
      ∀ x L, lookupD (remove_node g node).1.node_incidence x = some L →
        e ∉ L) ∧
    (∀ e ∈ L0, (rewriteEdge e node).size ≤ 1 →
      rewriteEdge e node ∉ keysD g.edge_data →
      rewriteEdge e node ∉ keysD (remove_node g node).1.edge_data ∧
      ∀ x L, lookupD (remove_node g node).1.node_incidence x = some L →
        rewriteEdge e node ∉ L) := by
  obtain ⟨sf, heq, hinv⟩ := remove_node_spec g node L0 HWF HInv hL0
    hpresent Hrw
  have hinv' : NodeLoopInv g node L0 L0 [] sf := hinv
  have hed : (remove_node g node).1.edge_data = sf.edge_data := by
    rw [heq]
  have hnd : (remove_node g node).1.node_data = sf.node_data := by
    rw [heq]
  have hni : (remove_node g node).1.node_incidence =
      eraseD sf.node_incidence node := by
    rw [heq]
  have hsfnd : sf.node_data = eraseD g.node_data node := hinv'.nd
  have hsfnikeys_nodup : (keysD sf.node_incidence).Nodup := by
    rw [hinv'.ni_keys]
    exact HWF.ni_nodup
  have hlook_inc : ∀ x, x ≠ node →
      lookupD (remove_node g node).1.node_incidence x =
        lookupD sf.node_incidence x := by
    intro x hx
    rw [hni]
    exact lookupD_eraseD_ne _ _ _ (fun hc => hx hc.symm)
  refine ⟨by rw [heq], ⟨?_, ?_⟩, ?_, ?_, ?_, ?_⟩
  · rw [hnd, hsfnd]
    exact lookupD_eraseD_self _ _ HWF.nd_nodup
  · rw [hni]
    exact lookupD_eraseD_self _ _ hsfnikeys_nodup
  · intro id hid hnodeid
    rw [hed] at hid
    exact absurd (hinv'.node_only_rem id hid hnodeid)
      (List.not_mem_nil _)
  · intro e he hbig
    refine ⟨?_, rewriteEdge_edgekey e node, ?_⟩
    · rw [hed]
      exact hinv'.big_present e he hbig
    · intro huniq
      rw [hed]
      exact hinv'.data_pres e he hbig huniq
  · intro e he
    constructor
    · rw [hed]
      exact hinv'.done_ed e he
    · intro x L hL
      by_cases hx : x = node
      · subst hx
        rw [hni, lookupD_eraseD_self _ _ hsfnikeys_nodup] at hL
        exact absurd hL (by simp)
      · rw [hlook_inc x hx] at hL
        exact (incContains_eq_false_iff sf x e).mp
          (hinv'.done_inc e he x hx) L hL
  · intro e he hsmall hnotg
    have hnotbig : ¬ 1 < (rewriteEdge e node).size := by omega
    constructor
    · rw [hed]
      intro hc
      rcases hinv'.ed_bound _ hc with h | ⟨e2, he2, hbig2, heq2⟩
      · exact hnotg h
      · rw [← heq2] at hbig2
        exact hnotbig hbig2
    · intro x L hL
      by_cases hx : x = node
      · subst hx
        rw [hni, lookupD_eraseD_self _ _ hsfnikeys_nodup] at hL
        exact absurd hL (by simp)
      · rw [hlook_inc x hx] at hL
        intro hmem
        rcases hinv'.inc_bound (x, L) (lookupD_mem _ _ _ hL) _ hmem with
          h | ⟨e2, he2, hbig2, heq2⟩
        · obtain ⟨L2, hL2, hmem2⟩ := (incContains_iff g x _).mp h
          exact hnotg (HInv.inc_mem_lookup hL2 hmem2).1
        · rw [← heq2] at hbig2
          exact hnotbig hbig2

/-- Witness for the amended claim C1: removing node 1 from the graph
with edges `{2,3}` (attrs `a=1`) and `{1,2,3}` (attrs `b=2`) succeeds;
the rewritten edge `{2,3}` is registered and its stored attributes are
the original `{1,2,3}` edge's (`b=2`), replacing the pre-existing
`a=1`. -/
theorem claim_C1_amended_witness :
    (remove_node mergeGraph 1).2 = none ∧
    lookupD (remove_node mergeGraph 1).1.node_data 1 = none ∧
    lookupD (remove_node mergeGraph 1).1.node_incidence 1 = none ∧
    rewriteEdge ⟨.unordered [1, 2, 3], none⟩ 1 ∈
      keysD (remove_node mergeGraph 1).1.edge_data ∧
    lookupD (remove_node mergeGraph 1).1.edge_data
        (rewriteEdge ⟨.unordered [1, 2, 3], none⟩ 1) =
      lookupD mergeGraph.edge_data ⟨.unordered [1, 2, 3], none⟩ := by
  have h := claim_C1_amended mergeGraph 1 [⟨.unordered [1, 2, 3], none⟩]
    ⟨by decide, by decide, by decide, by decide⟩
    ⟨by decide, by decide, by decide, by decide⟩
    (by decide) (by decide) (by decide)
  have h4 := h.2.2.2.1 ⟨.unordered [1, 2, 3], none⟩ (by decide) (by decide)
  exact ⟨h.1, h.2.1.1, h.2.1.2, h4.1, h4.2.2 (by decide)⟩

/-! ### Completion-driven facts about the loops -/

/-- If the incidence-removal loop completes (sets duplicate-free), the
traversed member list has no duplicates and each listed member's set
contained the target at entry. -/
theorem removeIncidence_complete_facts (target : EdgeId) :
    ∀ (M : List Node) (s : HG),
    (∀ p ∈ s.node_incidence, (Prod.snd p).Nodup) →
    (removeIncidence target s M).2 = none →
    M.Nodup ∧
      ∀ n ∈ M, ∃ L, lookupD s.node_incidence n = some L ∧ target ∈ L := by
  intro M
  induction M with
  | nil =>
    intro s _ _
    exact ⟨List.nodup_nil, fun n hn => absurd hn (by simp)⟩
  | cons n rest ih =>
    intro s hndp hcomp
    cases hL : lookupD s.node_incidence n with
    | none =>
      rw [show (removeIncidence target s (n :: rest)).2 = some .keyError by
        simp [removeIncidence, hL]] at hcomp
      exact absurd hcomp (by simp)
    | some L =>
      cases hR : setRemove L target with
      | none =>
        rw [show (removeIncidence target s (n :: rest)).2 = some .keyError by
          simp [removeIncidence, hL, hR]] at hcomp
        exact absurd hcomp (by simp)
      | some L1 =>
        obtain ⟨htmem, hL1⟩ := (setRemove_eq_some_iff L target L1).mp hR
        have hLnd : L.Nodup := hndp (n, L) (lookupD_mem _ _ _ hL)
        have hstep : removeIncidence target s (n :: rest) =
            removeIncidence target
              { s with node_incidence := assignD s.node_incidence n L1 }
              rest := by
          simp [removeIncidence, hL, hR]
        rw [hstep] at hcomp
        have hndp1 : ∀ p ∈ (assignD s.node_incidence n L1),
            (Prod.snd p).Nodup := by
          intro p hp
          rcases mem_assignD hp with hp' | ⟨_, hval⟩
          · exact hndp p hp'
          · rw [hval, hL1]
            exact hLnd.erase target
        obtain ⟨hrestnd, hrest⟩ := ih _ hndp1 hcomp
        have hnotrest : n ∉ rest := by
          intro hc
          obtain ⟨L2, hL2, htm2⟩ := hrest n hc
          rw [show lookupD (({ s with node_incidence := assignD s.node_incidence n L1 } : HG)).node_incidence n =
            some L1 from by simp] at hL2
          rw [← Option.some.inj hL2, hL1] at htm2
          exact hLnd.not_mem_erase htm2
        refine ⟨List.nodup_cons.mpr ⟨hnotrest, hrestnd⟩, ?_⟩
        intro m hm
        rcases List.mem_cons.mp hm with rfl | hmr
        · exact ⟨L, hL, htmem⟩
        · obtain ⟨L2, hL2, htm2⟩ := hrest m hmr
          have hmn : n ≠ m := fun hc => hnotrest (hc ▸ hmr)
          rw [show lookupD (({ s with node_incidence := assignD s.node_incidence n L1 } : HG)).node_incidence m =
            lookupD s.node_incidence m from
            lookupD_assignD_ne _ _ _ _ hmn] at hL2
          exact ⟨L2, hL2, htm2⟩

/-- If `remove_node`'s edge loop completes, every traversed edge
rewrites to a duplicate-free member list. -/
theorem removeNodeLoop_complete_rw_nodup (node : Node) :
    ∀ (R : List EdgeId) (s : HG),
    (∀ p ∈ s.node_incidence, (Prod.snd p).Nodup) →
    (removeNodeLoop node s R).2 = none →
    ∀ e ∈ R, (EdgeId.members (rewriteEdge e node)).Nodup := by
  intro R
  induction R with
  | nil =>
    intro s _ _ e he
    exact absurd he (by simp)
  | cons e rest ih =>
    intro s hndp hcomp
    rcases hstep : removeNodeEdge node s e with ⟨s1, err1⟩
    cases err1 with
    | some errv =>
      rw [show (removeNodeLoop node s (e :: rest)).2 = some errv by
        simp [removeNodeLoop, hstep]] at hcomp
      exact absurd hcomp (by simp)
    | none =>
      have hloop : removeNodeLoop node s (e :: rest) =
          removeNodeLoop node s1 rest := by
        simp [removeNodeLoop, hstep]
      rw [hloop] at hcomp
      have hndp1 : ∀ p ∈ s1.node_incidence, (Prod.snd p).Nodup := by
        have hx := removeNodeEdge_nodup node s e hndp
        rw [hstep] at hx
        exact hx
      intro x hx
      rcases List.mem_cons.mp hx with rfl | hxr
      · cases ha : lookupD s.edge_data x with
        | none =>
          rw [show removeNodeEdge node s x = (s, some .keyError) by
            simp [removeNodeEdge, ha]] at hstep
          exact absurd (congrArg Prod.snd hstep) (by simp)
        | some ed =>
          by_cases hbig : 1 < (rewriteEdge x node).size
          · rcases hPA : addIncidence (rewriteEdge x node)
                { s with edge_data := assignD (eraseD s.edge_data x) (rewriteEdge x node) ed }
                (EdgeId.members (rewriteEdge x node)) with ⟨s2, errA⟩
            cases errA with
            | some erra =>
              rw [show removeNodeEdge node s x = (s2, some erra) by
                simp only [removeNodeEdge, ha, if_pos hbig]
                rw [hPA]] at hstep
              exact absurd (congrArg Prod.snd hstep) (by simp)
            | none =>
              have hres : removeNodeEdge node s x =
                  removeIncidence x s2 (EdgeId.members (rewriteEdge x node)) := by
                simp only [removeNodeEdge, ha, if_pos hbig]
                rw [hPA]
              rw [hres] at hstep
              have hnd2 : ∀ p ∈ s2.node_incidence, (Prod.snd p).Nodup := by
                have hy := addIncidence_nodup (rewriteEdge x node)
                  (EdgeId.members (rewriteEdge x node))
                  { s with edge_data := assignD (eraseD s.edge_data x) (rewriteEdge x node) ed } hndp
                rw [hPA] at hy
                exact hy
              have hcompR : (removeIncidence x s2
                  (EdgeId.members (rewriteEdge x node))).2 = none := by
                rw [hstep]
              exact (removeIncidence_complete_facts x _ s2 hnd2 hcompR).1
          · have hres : removeNodeEdge node s x =
                removeIncidence x { s with edge_data := eraseD s.edge_data x }
                  (EdgeId.members (rewriteEdge x node)) := by
              simp only [removeNodeEdge, ha, if_neg hbig]
            rw [hres] at hstep
            have hcompR : (removeIncidence x
                { s with edge_data := eraseD s.edge_data x }
                (EdgeId.members (rewriteEdge x node))).2 = none := by
              rw [hstep]
            exact (removeIncidence_complete_facts x
              (EdgeId.members (rewriteEdge x node))
              { s with edge_data := eraseD s.edge_data x } hndp hcompR).1
      · exact ih s1 hndp1 hcomp x hxr

/-! ### Invariant preservation: add_node -/

theorem lookupD_append_single_ne {κ β : Type} [DecidableEq κ]
    (d : List (κ × β)) (a : κ) (b : β) (m : κ) (h : a ≠ m) :
    lookupD (d ++ [(a, b)]) m = lookupD d m := by
  cases hl : lookupD d m with
  | some v => exact lookupD_append_left _ _ _ _ hl
  | none =>
    rw [lookupD_append_right _ _ _ hl]
    simp [h]

theorem add_node_preserves (g : HG) (node : Node) (kwds : Attrs)
    (hwf : WF g) (hinv : Inv g) :
    WF (add_node g node kwds).1 ∧ Inv (add_node g node kwds).1 := by
  cases hl : lookupD g.node_data node with
  | some d =>
    have hres : (add_node g node kwds).1 =
        { g with node_data :=
          assignD g.node_data node (dictUpdate d kwds) } := by
      simp [add_node, hl]
    have hcont : containsD g.node_data node = true := by
      simp [containsD, hl]
    rw [hres]
    constructor
    · exact ⟨nodup_keysD_assignD _ _ _ hwf.nd_nodup, hwf.ni_nodup,
        hwf.ed_nodup, hwf.inc_nodup⟩
    · refine ⟨?_, ?_, ?_, ?_⟩
      · intro x hx
        rw [show keysD (assignD g.node_data node (dictUpdate d kwds)) =
          keysD g.node_data from keysD_assignD_of_contains _ _ _ hcont] at hx
        exact hinv.keys_sub_ni hx
      · intro x hx
        rw [show keysD (assignD g.node_data node (dictUpdate d kwds)) =
          keysD g.node_data from keysD_assignD_of_contains _ _ _ hcont]
        exact hinv.keys_sub_nd hx
      · intro p hp n hn
        exact hinv.edge_mem p hp n hn
      · intro p hp id hid
        exact hinv.inc_mem p hp id hid
  | none =>
    have hres : (add_node g node kwds).1 =
        { g with node_data := g.node_data ++ [(node, kwds)], node_incidence := g.node_incidence ++ [(node, [])] } := by
      simp [add_node, hl]
    have hnotnd : node ∉ keysD g.node_data :=
      (lookupD_eq_none_iff _ _).mp hl
    have hnotni : node ∉ keysD g.node_incidence :=
      fun hc => hnotnd (hinv.keys_sub_nd hc)
    rw [hres]
    constructor
    · refine ⟨?_, ?_, hwf.ed_nodup, ?_⟩
      · rw [keysD_append]
        simp [List.nodup_append, hwf.nd_nodup, hnotnd]
      · rw [keysD_append]
        simp [List.nodup_append, hwf.ni_nodup, hnotni]
      · intro p hp
        rcases List.mem_append.mp hp with hp' | hp'
        · exact hwf.inc_nodup p hp'
        · have : p = (node, []) := by simpa using hp'
          rw [this]
          exact List.nodup_nil
    · refine ⟨?_, ?_, ?_, ?_⟩
      · intro x hx
        rw [keysD_append] at hx ⊢
        rcases List.mem_append.mp hx with hx' | hx'
        · exact List.mem_append.mpr (Or.inl (hinv.keys_sub_ni hx'))
        · exact List.mem_append.mpr (Or.inr (by simpa using hx'))
      · intro x hx
        rw [keysD_append] at hx ⊢
        rcases List.mem_append.mp hx with hx' | hx'
        · exact List.mem_append.mpr (Or.inl (hinv.keys_sub_nd hx'))
        · exact List.mem_append.mpr (Or.inr (by simpa using hx'))
      · intro p hp n hn
        obtain ⟨L, hL, hmem⟩ := (incContains_iff g n p.1).mp
          (hinv.edge_mem p hp n hn)
        exact (incContains_iff _ n p.1).mpr
          ⟨L, lookupD_append_left _ _ _ _ hL, hmem⟩
      · intro p hp id hid
        rcases List.mem_append.mp hp with hp' | hp'
        · exact hinv.inc_mem p hp' id hid
        · have hpeq : p = (node, ([] : List EdgeId)) := by simpa using hp'
          rw [hpeq] at hid
          exact absurd hid (by simp)

/-! ### Invariant preservation: the add_edge member loop -/

theorem addEdgeMembers_spec (e : EdgeId) :
    ∀ (M : List Node) (s : HG),
    (∀ m, m ∈ keysD s.node_data ↔ m ∈ keysD s.node_incidence) →
    (keysD s.node_data).Nodup →
    (keysD s.node_incidence).Nodup →
    (∀ p ∈ s.node_incidence, (Prod.snd p).Nodup) →
    (addEdgeMembers e s M).2 = none ∧
    (∀ m, m ∈ keysD (addEdgeMembers e s M).1.node_data ↔
      (m ∈ keysD s.node_data ∨ m ∈ M)) ∧
    (∀ m, m ∈ keysD (addEdgeMembers e s M).1.node_incidence ↔
      (m ∈ keysD s.node_incidence ∨ m ∈ M)) ∧
    (keysD (addEdgeMembers e s M).1.node_data).Nodup ∧
    (keysD (addEdgeMembers e s M).1.node_incidence).Nodup ∧
    (∀ p ∈ (addEdgeMembers e s M).1.node_incidence, (Prod.snd p).Nodup) ∧
    (∀ m, m ∉ M → lookupD (addEdgeMembers e s M).1.node_incidence m =
      lookupD s.node_incidence m) ∧
    (∀ m ∈ M, ∃ L1,
      lookupD (addEdgeMembers e s M).1.node_incidence m = some L1 ∧
      ∀ id, id ∈ L1 ↔
        ((∃ L, lookupD s.node_incidence m = some L ∧ id ∈ L) ∨ id = e)) ∧
    (addEdgeMembers e s M).1.edge_data = s.edge_data := by
  intro M
  induction M with
  | nil =>
    intro s hkeq hnd hni hins
    refine ⟨rfl, by simp [addEdgeMembers], by simp [addEdgeMembers], hnd,
      hni, hins, fun m _ => rfl, fun m hm => absurd hm (by simp), rfl⟩
  | cons n rest ih =>
    intro s hkeq hnd hni hins
    by_cases hc : containsD s.node_data n
    · have hcni : n ∈ keysD s.node_incidence :=
        (hkeq n).mp ((containsD_iff_mem_keysD _ _).mp hc)
      have hsome := (lookupD_isSome_iff_mem_keysD _ _).mpr hcni
      cases hL : lookupD s.node_incidence n with
      | none => rw [hL] at hsome; simp at hsome
      | some L =>
        have hLnd : L.Nodup := hins (n, L) (lookupD_mem _ _ _ hL)
        have hstep : addEdgeMembers e s (n :: rest) =
            addEdgeMembers e { s with node_incidence := assignD s.node_incidence n (setAdd L e) } rest := by
          simp [addEdgeMembers, hc, hL]
        have hkeysni : keysD (assignD s.node_incidence n (setAdd L e)) =
            keysD s.node_incidence :=
          keysD_assignD_of_contains _ _ _ (by simp [containsD, hL])
        have hkeq1 : ∀ m,
            m ∈ keysD ({ s with node_incidence := assignD s.node_incidence n (setAdd L e) } : HG).node_data ↔
            m ∈ keysD ({ s with node_incidence := assignD s.node_incidence n (setAdd L e) } : HG).node_incidence := by
          intro m
          rw [show keysD ({ s with node_incidence := assignD s.node_incidence n (setAdd L e) } : HG).node_incidence =
            keysD s.node_incidence from hkeysni]
          exact hkeq m
        have hins1 : ∀ p ∈ assignD s.node_incidence n (setAdd L e),
            (Prod.snd p).Nodup := by
          intro p hp
          rcases mem_assignD hp with hp' | ⟨_, hval⟩
          · exact hins p hp'
          · rw [hval]
            exact nodup_setAdd _ _ hLnd
        obtain ⟨c1, c2, c3, c4, c5, c6, c7, c8, c9⟩ :=
          ih { s with node_incidence := assignD s.node_incidence n (setAdd L e) }
            hkeq1 hnd (by rw [show keysD ({ s with node_incidence := assignD s.node_incidence n (setAdd L e) } : HG).node_incidence = keysD s.node_incidence from hkeysni]; exact hni) hins1
        have hnk : n ∈ keysD s.node_data := (containsD_iff_mem_keysD _ _).mp hc
        rw [hstep]
        refine ⟨c1, ?_, ?_, c4, c5, c6, ?_, ?_, c9⟩
        · intro m
          rw [c2 m]
          constructor
          · rintro (h | h)
            · exact Or.inl h
            · exact Or.inr (by simp [h])
          · rintro (h | h)
            · exact Or.inl h
            · rcases List.mem_cons.mp h with rfl | h'
              · exact Or.inl hnk
              · exact Or.inr h'
        · intro m
          rw [c3 m]
          rw [show keysD (assignD s.node_incidence n (setAdd L e)) =
            keysD s.node_incidence from hkeysni]
          constructor
          · rintro (h | h)
            · exact Or.inl h
            · exact Or.inr (by simp [h])
          · rintro (h | h)
            · exact Or.inl h
            · rcases List.mem_cons.mp h with rfl | h'
              · exact Or.inl hcni
              · exact Or.inr h'
        · intro m hm
          have hmn : m ≠ n := fun hcq => hm (by simp [hcq])
          have hmr : m ∉ rest := fun hcq => hm (by simp [hcq])
          rw [c7 m hmr]
          exact lookupD_assignD_ne _ _ _ _ (fun hcq => hmn hcq.symm)
        · intro m hm
          by_cases hmn : m = n
          · rw [hmn]
            by_cases hmr : n ∈ rest
            · obtain ⟨L1, hlook1, hiff1⟩ := c8 n hmr
              refine ⟨L1, hlook1, ?_⟩
              intro id
              rw [hiff1 id]
              have hlv : lookupD ({ s with node_incidence := assignD s.node_incidence n (setAdd L e) } : HG).node_incidence n = some (setAdd L e) := by
                simp
              rw [show (∃ L2, lookupD ({ s with node_incidence := assignD s.node_incidence n (setAdd L e) } : HG).node_incidence n = some L2 ∧ id ∈ L2) ↔ id ∈ setAdd L e from by simp [hlv]]
              rw [show (∃ L2, lookupD s.node_incidence n = some L2 ∧ id ∈ L2) ↔ id ∈ L from by simp [hL]]
              rw [mem_setAdd]
              constructor
              · rintro ((h | h) | h)
                · exact Or.inl h
                · exact Or.inr h
                · exact Or.inr h
              · rintro (h | h)
                · exact Or.inl (Or.inl h)
                · exact Or.inr h
            · refine ⟨setAdd L e, ?_, ?_⟩
              · rw [c7 n hmr]
                simp
              · intro id
                rw [mem_setAdd]
                rw [show (∃ L2, lookupD s.node_incidence n = some L2 ∧ id ∈ L2) ↔ id ∈ L from by simp [hL]]
          · have hmr : m ∈ rest := by
              rcases List.mem_cons.mp hm with h | h
              · exact absurd h hmn
              · exact h
            obtain ⟨L1, hlook1, hiff1⟩ := c8 m hmr
            refine ⟨L1, hlook1, ?_⟩
            intro id
            rw [hiff1 id]
            rw [show lookupD ({ s with node_incidence := assignD s.node_incidence n (setAdd L e) } : HG).node_incidence m = lookupD s.node_incidence m from lookupD_assignD_ne _ _ _ _ (fun hcq => hmn hcq.symm)]
    · have hnotnd : n ∉ keysD s.node_data := by
        intro hcq
        rw [← containsD_iff_mem_keysD] at hcq
        exact hc hcq
      have hnotni : n ∉ keysD s.node_incidence :=
        fun hcq => hnotnd ((hkeq n).mpr hcq)
      have hlni : lookupD s.node_incidence n = none :=
        (lookupD_eq_none_iff _ _).mpr hnotni
      have hstep : addEdgeMembers e s (n :: rest) =
          addEdgeMembers e { s with node_data := s.node_data ++ [(n, [])], node_incidence := s.node_incidence ++ [(n, [e])] } rest := by
        simp [addEdgeMembers, hc]
      have hndkeys : keysD (s.node_data ++ [(n, ([] : Attrs))]) =
          keysD s.node_data ++ [n] := by
        rw [keysD_append]
        rfl
      have hnikeys : keysD (s.node_incidence ++ [(n, [e])]) =
          keysD s.node_incidence ++ [n] := by
        rw [keysD_append]
        rfl
      have hkeq1 : ∀ m,
          m ∈ keysD ({ s with node_data := s.node_data ++ [(n, [])], node_incidence := s.node_incidence ++ [(n, [e])] } : HG).node_data ↔
          m ∈ keysD ({ s with node_data := s.node_data ++ [(n, [])], node_incidence := s.node_incidence ++ [(n, [e])] } : HG).node_incidence := by
        intro m
        rw [show keysD ({ s with node_data := s.node_data ++ [(n, [])], node_incidence := s.node_incidence ++ [(n, [e])] } : HG).node_data = keysD s.node_data ++ [n] from hndkeys]
        rw [show keysD ({ s with node_data := s.node_data ++ [(n, [])], node_incidence := s.node_incidence ++ [(n, [e])] } : HG).node_incidence = keysD s.node_incidence ++ [n] from hnikeys]
        simp only [List.mem_append]
        constructor
        · rintro (h | h)
          · exact Or.inl ((hkeq m).mp h)
          · exact Or.inr h
        · rintro (h | h)
          · exact Or.inl ((hkeq m).mpr h)
          · exact Or.inr h
      have hins1 : ∀ p ∈ s.node_incidence ++ [(n, [e])],
          (Prod.snd p).Nodup := by
        intro p hp
        rcases List.mem_append.mp hp with hp' | hp'
        · exact hins p hp'
        · have : p = (n, [e]) := by simpa using hp'
          rw [this]
          exact List.nodup_singleton e
      obtain ⟨c1, c2, c3, c4, c5, c6, c7, c8, c9⟩ :=
        ih { s with node_data := s.node_data ++ [(n, [])], node_incidence := s.node_incidence ++ [(n, [e])] }
          hkeq1
          (by rw [show keysD ({ s with node_data := s.node_data ++ [(n, [])], node_incidence := s.node_incidence ++ [(n, [e])] } : HG).node_data = keysD s.node_data ++ [n] from hndkeys]; simp [List.nodup_append, hnd, hnotnd])
          (by rw [show keysD ({ s with node_data := s.node_data ++ [(n, [])], node_incidence := s.node_incidence ++ [(n, [e])] } : HG).node_incidence = keysD s.node_incidence ++ [n] from hnikeys]; simp [List.nodup_append, hni, hnotni])
          hins1
      rw [hstep]
      refine ⟨c1, ?_, ?_, c4, c5, c6, ?_, ?_, c9⟩
      · intro m
        rw [c2 m]
        rw [show keysD ({ s with node_data := s.node_data ++ [(n, [])], node_incidence := s.node_incidence ++ [(n, [e])] } : HG).node_data = keysD s.node_data ++ [n] from hndkeys]
        simp only [List.mem_append, List.mem_cons, List.not_mem_nil, or_false]
        tauto
      · intro m
        rw [c3 m]
        rw [show keysD ({ s with node_data := s.node_data ++ [(n, [])], node_incidence := s.node_incidence ++ [(n, [e])] } : HG).node_incidence = keysD s.node_incidence ++ [n] from hnikeys]
        simp only [List.mem_append, List.mem_cons, List.not_mem_nil, or_false]
        tauto
      · intro m hm
        have hmn : m ≠ n := fun hcq => hm (by simp [hcq])
        have hmr : m ∉ rest := fun hcq => hm (by simp [hcq])
        rw [c7 m hmr]
        exact lookupD_append_single_ne _ _ _ _ (fun hcq => hmn hcq.symm)
      · intro m hm
        have hlookn : lookupD ({ s with node_data := s.node_data ++ [(n, [])], node_incidence := s.node_incidence ++ [(n, [e])] } : HG).node_incidence n = some [e] := by
          rw [show lookupD ({ s with node_data := s.node_data ++ [(n, [])], node_incidence := s.node_incidence ++ [(n, [e])] } : HG).node_incidence n = lookupD (s.node_incidence ++ [(n, [e])]) n from rfl]
          rw [lookupD_append_right _ _ _ hlni]
          simp
        by_cases hmn : m = n
        · rw [hmn]
          by_cases hmr : n ∈ rest
          · obtain ⟨L1, hlook1, hiff1⟩ := c8 n hmr
            refine ⟨L1, hlook1, ?_⟩
            intro id
            rw [hiff1 id]
            rw [show (∃ L2, lookupD ({ s with node_data := s.node_data ++ [(n, [])], node_incidence := s.node_incidence ++ [(n, [e])] } : HG).node_incidence n = some L2 ∧ id ∈ L2) ↔ id ∈ [e] from by simp [hlookn]]
            rw [show (∃ L2, lookupD s.node_incidence n = some L2 ∧ id ∈ L2) ↔ False from by simp [hlni]]
            simp
          · refine ⟨[e], ?_, ?_⟩
            · rw [c7 n hmr]
              exact hlookn
            · intro id
              rw [show (∃ L2, lookupD s.node_incidence n = some L2 ∧ id ∈ L2) ↔ False from by simp [hlni]]
              simp
        · have hmr : m ∈ rest := by
            rcases List.mem_cons.mp hm with h | h
            · exact absurd h hmn
            · exact h
          obtain ⟨L1, hlook1, hiff1⟩ := c8 m hmr
          refine ⟨L1, hlook1, ?_⟩
          intro id
          rw [hiff1 id]
          rw [show lookupD ({ s with node_data := s.node_data ++ [(n, [])], node_incidence := s.node_incidence ++ [(n, [e])] } : HG).node_incidence m = lookupD s.node_incidence m from lookupD_append_single_ne _ _ _ _ (fun hcq => hmn hcq.symm)]

/-! ### Invariant preservation: add_edge -/

/-- Overwriting the stored attributes of an already-registered edge
keeps well-formedness and the spec invariants. -/
theorem updateEdgeData_preserves (g : HG) (e : EdgeId) (v : Attrs)
    (hwf : WF g) (hinv : Inv g) (he : containsD g.edge_data e = true) :
    WF ({ g with edge_data := assignD g.edge_data e v } : HG) ∧
    Inv ({ g with edge_data := assignD g.edge_data e v } : HG) := by
  have hkeys : keysD (assignD g.edge_data e v) = keysD g.edge_data :=
    keysD_assignD_of_contains _ _ _ he
  have hd : ∃ d, lookupD g.edge_data e = some d := by
    unfold containsD at he
    cases hl : lookupD g.edge_data e with
    | none => rw [hl] at he; simp at he
    | some d => exact ⟨d, rfl⟩
  obtain ⟨d, hld⟩ := hd
  constructor
  · refine ⟨hwf.nd_nodup, hwf.ni_nodup, ?_, hwf.inc_nodup⟩
    rw [show keysD ({ g with edge_data := assignD g.edge_data e v } : HG).edge_data = keysD g.edge_data from hkeys]
    exact hwf.ed_nodup
  · refine ⟨hinv.keys_sub_ni, hinv.keys_sub_nd, ?_, ?_⟩
    · intro p hp n hn
      rcases mem_assignD hp with hp' | ⟨hp1, _⟩
      · exact hinv.edge_mem p hp' n hn
      · rw [hp1] at hn ⊢
        obtain ⟨L, hL, heL⟩ := hinv.edge_mem_lookup hld hn
        exact (incContains_iff _ n e).mpr ⟨L, hL, heL⟩
    · intro p hp id hid
      obtain ⟨h1, h2⟩ := hinv.inc_mem p hp id hid
      refine ⟨?_, h2⟩
      rw [show keysD ({ g with edge_data := assignD g.edge_data e v } : HG).edge_data = keysD g.edge_data from hkeys]
      exact h1

/-- Registering a fresh edge identity and running the member loop
keeps well-formedness and the spec invariants (and the loop
completes). -/
theorem insertEdge_preserves (g : HG) (e : EdgeId) (edata : Attrs)
    (hwf : WF g) (hinv : Inv g) (hl : lookupD g.edge_data e = none) :
    WF (addEdgeMembers e
      ({ g with edge_data := g.edge_data ++ [(e, edata)] } : HG)
      (EdgeId.members e)).1 ∧
    Inv (addEdgeMembers e
      ({ g with edge_data := g.edge_data ++ [(e, edata)] } : HG)
      (EdgeId.members e)).1 := by
  have hnote : e ∉ keysD g.edge_data := (lookupD_eq_none_iff _ _).mp hl
  obtain ⟨c1, c2, c3, c4, c5, c6, c7, c8, c9⟩ :=
    addEdgeMembers_spec e (EdgeId.members e)
      ({ g with edge_data := g.edge_data ++ [(e, edata)] } : HG)
      (fun m => hinv.keys_eq m) hwf.nd_nodup hwf.ni_nodup hwf.inc_nodup
  have hedkeys : keysD (addEdgeMembers e
      ({ g with edge_data := g.edge_data ++ [(e, edata)] } : HG)
      (EdgeId.members e)).1.edge_data = keysD g.edge_data ++ [e] := by
    rw [c9]
    rw [show keysD (({ g with edge_data := g.edge_data ++ [(e, edata)] } : HG).edge_data) = keysD (g.edge_data ++ [(e, edata)]) from rfl]
    rw [keysD_append]
    rfl
  constructor
  · refine ⟨c4, c5, ?_, c6⟩
    rw [hedkeys]
    simp [List.nodup_append, hwf.ed_nodup, hnote]
  · refine ⟨?_, ?_, ?_, ?_⟩
    · intro x hx
      rcases (c2 x).mp hx with h | h
      · exact (c3 x).mpr (Or.inl (hinv.keys_sub_ni h))
      · exact (c3 x).mpr (Or.inr h)
    · intro x hx
      rcases (c3 x).mp hx with h | h
      · exact (c2 x).mpr (Or.inl (hinv.keys_sub_nd h))
      · exact (c2 x).mpr (Or.inr h)
    · intro p hp n hn
      rw [show (addEdgeMembers e
          ({ g with edge_data := g.edge_data ++ [(e, edata)] } : HG)
          (EdgeId.members e)).1.edge_data = g.edge_data ++ [(e, edata)]
          from c9] at hp
      rcases List.mem_append.mp hp with hp' | hp'
      · by_cases hne : n ∈ EdgeId.members e
        · obtain ⟨L1, hlook1, hiff1⟩ := c8 n hne
          obtain ⟨L, hL, hm⟩ := (incContains_iff g n p.1).mp
            (hinv.edge_mem p hp' n hn)
          exact (incContains_iff _ n p.1).mpr
            ⟨L1, hlook1, (hiff1 p.1).mpr (Or.inl ⟨L, hL, hm⟩)⟩
        · have hic := hinv.edge_mem p hp' n hn
          rw [incContains_congr (c7 n hne) p.1]
          exact hic
      · have hpeq : p = (e, edata) := by simpa using hp'
        rw [hpeq]
        obtain ⟨L1, hlook1, hiff1⟩ := c8 n (by rw [hpeq] at hn; exact hn)
        exact (incContains_iff _ n e).mpr
          ⟨L1, hlook1, (hiff1 e).mpr (Or.inr rfl)⟩
    · intro p hp id hid
      have hlp : lookupD (addEdgeMembers e
          ({ g with edge_data := g.edge_data ++ [(e, edata)] } : HG)
          (EdgeId.members e)).1.node_incidence p.1 = some p.2 :=
        lookupD_of_mem_nodup c5 hp
      by_cases hme : p.1 ∈ EdgeId.members e
      · obtain ⟨L1, hlook1, hiff1⟩ := c8 p.1 hme
        have hL1 : L1 = p.2 := Option.some.inj (hlook1.symm.trans hlp)
        rcases (hiff1 id).mp (by rw [hL1]; exact hid) with ⟨L, hL, hidL⟩ | rfl
        · obtain ⟨h1, h2⟩ := hinv.inc_mem_lookup hL hidL
          refine ⟨?_, h2⟩
          rw [hedkeys]
          exact List.mem_append_left _ h1
        · refine ⟨?_, hme⟩
          rw [hedkeys]
          simp
      · have hgl : lookupD g.node_incidence p.1 = some p.2 :=
          (c7 p.1 hme).symm.trans hlp
        obtain ⟨h1, h2⟩ := hinv.inc_mem_lookup hgl hid
        refine ⟨?_, h2⟩
        rw [hedkeys]
        exact List.mem_append_left _ h1

/-- `add_edge` preserves well-formedness and the spec invariants (it
always completes on a well-formed invariant-satisfying graph). -/
theorem add_edge_preserves (g : HG) (a : EdgeArg)
    (hwf : WF g) (hinv : Inv g) :
    WF (add_edge g a).1 ∧ Inv (add_edge g a).1 := by
  cases a with
  | raw nb ek kw =>
    cases hl : lookupD g.edge_data (⟨nb, ek⟩ : EdgeId) with
    | some d =>
      have hres : (add_edge g (.raw nb ek kw)).1 =
          ({ g with edge_data := assignD g.edge_data ⟨nb, ek⟩ (dictUpdate d kw) } : HG) := by
        simp [add_edge, hl]
      rw [hres]
      exact updateEdgeData_preserves g ⟨nb, ek⟩ _ hwf hinv
        (by simp [containsD, hl])
    | none =>
      have hres : (add_edge g (.raw nb ek kw)).1 =
          (addEdgeMembers ⟨nb, ek⟩
            ({ g with edge_data := g.edge_data ++ [(⟨nb, ek⟩, kw)] } : HG)
            (EdgeId.members ⟨nb, ek⟩)).1 := by
        simp only [add_edge, hl]
        rcases addEdgeMembers ⟨nb, ek⟩
            ({ g with edge_data := g.edge_data ++ [(⟨nb, ek⟩, kw)] } : HG)
            (EdgeId.members ⟨nb, ek⟩) with ⟨g2, err⟩
        cases err <;> rfl
      rw [hres]
      exact insertEdge_preserves g ⟨nb, ek⟩ kw hwf hinv hl
  | pre e0 d0 kw =>
    cases hl : lookupD g.edge_data e0 with
    | some d =>
      have hres : (add_edge g (.pre e0 d0 kw)).1 =
          ({ g with edge_data := assignD g.edge_data e0 (dictUpdate d kw) } : HG) := by
        simp [add_edge, hl]
      rw [hres]
      exact updateEdgeData_preserves g e0 _ hwf hinv
        (by simp [containsD, hl])
    | none =>
      have hres : (add_edge g (.pre e0 d0 kw)).1 =
          (addEdgeMembers e0
            ({ g with edge_data := g.edge_data ++ [(e0, dictUpdate d0 kw)] } : HG)
            (EdgeId.members e0)).1 := by
        simp only [add_edge, hl]
        rcases addEdgeMembers e0
            ({ g with edge_data := g.edge_data ++ [(e0, dictUpdate d0 kw)] } : HG)
            (EdgeId.members e0) with ⟨g2, err⟩
        cases err <;> rfl
      rw [hres]
      exact insertEdge_preserves g e0 (dictUpdate d0 kw) hwf hinv hl

/-! ### Invariant preservation: remove_edge and remove_node -/

/-- A completing `remove_edge` preserves well-formedness and the spec
invariants. -/
theorem remove_edge_preserves (g : HG) (r : EdgeRef)
    (hwf : WF g) (hinv : Inv g)
    (hcomp : (remove_edge g r).2 = none) :
    WF (remove_edge g r).1 ∧ Inv (remove_edge g r).1 := by
  by_cases hc : containsD g.edge_data (resolveRef r) = true
  case neg =>
    rw [show remove_edge g r = (g, some .keyError) from by
      simp [remove_edge, hc]] at hcomp
    exact absurd hcomp (by simp)
  case pos =>
    have hres : remove_edge g r =
        removeIncidence (resolveRef r)
          ({ g with edge_data := eraseD g.edge_data (resolveRef r) } : HG)
          (EdgeId.members (resolveRef r)) := by
      simp [remove_edge, hc]
    rw [hres] at hcomp ⊢
    obtain ⟨hMnd, hpre⟩ := removeIncidence_complete_facts (resolveRef r)
      (EdgeId.members (resolveRef r))
      ({ g with edge_data := eraseD g.edge_data (resolveRef r) } : HG)
      hwf.inc_nodup hcomp
    obtain ⟨_, hout, hin⟩ := removeIncidence_spec (resolveRef r)
      (EdgeId.members (resolveRef r))
      ({ g with edge_data := eraseD g.edge_data (resolveRef r) } : HG)
      hMnd hpre
    have hed : (removeIncidence (resolveRef r)
        ({ g with edge_data := eraseD g.edge_data (resolveRef r) } : HG)
        (EdgeId.members (resolveRef r))).1.edge_data =
        eraseD g.edge_data (resolveRef r) :=
      removeIncidence_edge_data _ _ _
    have hnd : (removeIncidence (resolveRef r)
        ({ g with edge_data := eraseD g.edge_data (resolveRef r) } : HG)
        (EdgeId.members (resolveRef r))).1.node_data = g.node_data :=
      removeIncidence_node_data _ _ _
    have hkeys : keysD (removeIncidence (resolveRef r)
        ({ g with edge_data := eraseD g.edge_data (resolveRef r) } : HG)
        (EdgeId.members (resolveRef r))).1.node_incidence =
        keysD g.node_incidence :=
      removeIncidence_keys _ _ _
    have hincnd := removeIncidence_nodup (resolveRef r)
      (EdgeId.members (resolveRef r))
      ({ g with edge_data := eraseD g.edge_data (resolveRef r) } : HG)
      hwf.inc_nodup
    constructor
    · refine ⟨?_, ?_, ?_, hincnd⟩
      · rw [hnd]
        exact hwf.nd_nodup
      · rw [hkeys]
        exact hwf.ni_nodup
      · rw [hed]
        exact nodup_keysD_eraseD _ _ hwf.ed_nodup
    · refine ⟨?_, ?_, ?_, ?_⟩
      · intro x hx
        rw [hnd] at hx
        rw [show keysD (removeIncidence (resolveRef r)
          ({ g with edge_data := eraseD g.edge_data (resolveRef r) } : HG)
          (EdgeId.members (resolveRef r))).1.node_incidence =
          keysD g.node_incidence from hkeys]
        exact hinv.keys_sub_ni hx
      · intro x hx
        rw [hkeys] at hx
        rw [show (removeIncidence (resolveRef r)
          ({ g with edge_data := eraseD g.edge_data (resolveRef r) } : HG)
          (EdgeId.members (resolveRef r))).1.node_data = g.node_data
          from hnd]
        exact hinv.keys_sub_nd hx
      · intro p hp n hn
        rw [hed] at hp
        have hp' : p ∈ g.edge_data := mem_of_mem_eraseD hp
        have hpe : p.1 ≠ resolveRef r := mem_eraseD_key_ne hwf.ed_nodup hp
        obtain ⟨L, hL, hm⟩ := (incContains_iff g n p.1).mp
          (hinv.edge_mem p hp' n hn)
        by_cases hne : n ∈ EdgeId.members (resolveRef r)
        · have hres2 := hin n hne L hL
          exact (incContains_iff _ n p.1).mpr
            ⟨L.erase (resolveRef r), hres2,
              (List.mem_erase_of_ne hpe).mpr hm⟩
        · refine (incContains_iff _ n p.1).mpr ⟨L, ?_, hm⟩
          exact (hout n hne).trans hL
      · intro p hp id hid
        have hRk : (keysD (removeIncidence (resolveRef r)
            ({ g with edge_data := eraseD g.edge_data (resolveRef r) } : HG)
            (EdgeId.members (resolveRef r))).1.node_incidence).Nodup := by
          rw [hkeys]
          exact hwf.ni_nodup
        have hlp := lookupD_of_mem_nodup hRk hp
        by_cases hme : p.1 ∈ EdgeId.members (resolveRef r)
        · obtain ⟨L, hLg, heL⟩ := hpre p.1 hme
          have hres2 := hin p.1 hme L hLg
          have hp2 : p.2 = L.erase (resolveRef r) :=
            Option.some.inj (hlp.symm.trans hres2)
          have hLnd : L.Nodup := hwf.inc_nodup_lookup hLg
          have hid' : id ∈ L.erase (resolveRef r) := by
            rw [← hp2]
            exact hid
          have hidL : id ∈ L := List.mem_of_mem_erase hid'
          have hidne : id ≠ resolveRef r := by
            intro hcq
            rw [hcq] at hid'
            exact hLnd.not_mem_erase hid'
          obtain ⟨h1, h2⟩ := hinv.inc_mem_lookup hLg hidL
          refine ⟨?_, h2⟩
          rw [hed]
          exact (mem_keys_eraseD_iff hwf.ed_nodup (resolveRef r) id).mpr
            ⟨hidne, h1⟩
        · have hgl : lookupD g.node_incidence p.1 = some p.2 :=
            (hout p.1 hme).symm.trans hlp
          obtain ⟨h1, h2⟩ := hinv.inc_mem_lookup hgl hid
          have hidne : id ≠ resolveRef r := by
            intro hcq
            rw [hcq] at h2
            exact hme h2
          refine ⟨?_, h2⟩
          rw [hed]
          exact (mem_keys_eraseD_iff hwf.ed_nodup (resolveRef r) id).mpr
            ⟨hidne, h1⟩

/-- A completing `remove_node` preserves well-formedness and the spec
invariants. -/
theorem remove_node_preserves (g : HG) (node : Node)
    (hwf : WF g) (hinv : Inv g)
    (hcomp : (remove_node g node).2 = none) :
    WF (remove_node g node).1 ∧ Inv (remove_node g node).1 := by
  by_cases hpresent : containsD g.node_data node = true
  case neg =>
    rw [show remove_node g node = (g, some .keyError) from by
      simp [remove_node, hpresent]] at hcomp
    exact absurd hcomp (by simp)
  case pos =>
    cases hL : lookupD g.node_incidence node with
    | none =>
      rw [show (remove_node g node).2 = some .keyError from by
        simp [remove_node, hpresent,
          show lookupD ({ g with node_data := eraseD g.node_data node } :
            HG).node_incidence node = none from hL]] at hcomp
      exact absurd hcomp (by simp)
    | some L0 =>
      rcases hrun : removeNodeLoop node
          ({ g with node_data := eraseD g.node_data node } : HG) L0
        with ⟨g2, err⟩
      cases err with
      | some errv =>
        rw [show (remove_node g node).2 = some errv from by
          simp [remove_node, hpresent,
            show lookupD ({ g with node_data := eraseD g.node_data node } :
              HG).node_incidence node = some L0 from hL, hrun]] at hcomp
        exact absurd hcomp (by simp)
      | none =>
        have Hrw : ∀ e ∈ L0, (EdgeId.members (rewriteEdge e node)).Nodup :=
          removeNodeLoop_complete_rw_nodup node L0
            ({ g with node_data := eraseD g.node_data node } : HG)
            hwf.inc_nodup (by rw [hrun])
        obtain ⟨sf, heq, hinvf⟩ :=
          remove_node_spec g node L0 hwf hinv hL hpresent Hrw
        have hed : (remove_node g node).1.edge_data = sf.edge_data := by
          rw [heq]
        have hnd2 : (remove_node g node).1.node_data = sf.node_data := by
          rw [heq]
        have hni2 : (remove_node g node).1.node_incidence =
            eraseD sf.node_incidence node := by
          rw [heq]
        have hsfnik : (keysD sf.node_incidence).Nodup := by
          rw [hinvf.ni_keys]
          exact hwf.ni_nodup
        constructor
        · refine ⟨?_, ?_, ?_, ?_⟩
          · rw [hnd2, hinvf.nd]
            exact nodup_keysD_eraseD _ _ hwf.nd_nodup
          · rw [hni2]
            exact nodup_keysD_eraseD _ _ hsfnik
          · rw [hed]
            exact hinvf.ed_nodup
          · intro p hp
            rw [hni2] at hp
            exact hinvf.ni_nodup p (mem_of_mem_eraseD hp)
        · refine ⟨?_, ?_, ?_, ?_⟩
          · intro x hx
            rw [hnd2, hinvf.nd] at hx
            obtain ⟨hxne, hxg⟩ :=
              (mem_keys_eraseD_iff hwf.nd_nodup node x).mp hx
            rw [hni2]
            refine (mem_keys_eraseD_iff hsfnik node x).mpr ⟨hxne, ?_⟩
            rw [hinvf.ni_keys]
            exact hinv.keys_sub_ni hxg
          · intro x hx
            rw [hni2] at hx
            obtain ⟨hxne, hxs⟩ := (mem_keys_eraseD_iff hsfnik node x).mp hx
            rw [hinvf.ni_keys] at hxs
            rw [hnd2, hinvf.nd]
            exact (mem_keys_eraseD_iff hwf.nd_nodup node x).mpr
              ⟨hxne, hinv.keys_sub_nd hxs⟩
          · intro p hp n hn
            rw [hed] at hp
            have hpk : p.1 ∈ keysD sf.edge_data := mem_keysD_of_mem hp
            have hne : n ≠ node := by
              intro hcq
              rw [hcq] at hn
              exact absurd (hinvf.node_only_rem p.1 hpk hn)
                (List.not_mem_nil _)
            obtain ⟨L, hLs, hmem⟩ := (incContains_iff sf n p.1).mp
              (hinvf.edge_mem_s p.1 hpk n hn hne)
            refine (incContains_iff _ n p.1).mpr ⟨L, ?_, hmem⟩
            rw [hni2]
            rw [lookupD_eraseD_ne _ node n (fun hcq => hne hcq.symm)]
            exact hLs
          · intro p hp id hid
            rw [hni2] at hp
            have hp' : p ∈ sf.node_incidence := mem_of_mem_eraseD hp
            have hpne : p.1 ≠ node := mem_eraseD_key_ne hsfnik hp
            obtain ⟨hmem, himp⟩ := hinvf.inc_mem_s p hp' id hid
            refine ⟨?_, hmem⟩
            rw [hed]
            exact himp hpne

/-! ### Claim C3 -/

/-- Claim C3: after every public mutation that completes — `add_node`
and `add_edge` always complete on a well-formed invariant-satisfying
graph, `remove_edge` and `remove_node` are taken under the hypothesis
that they complete — the spec's HyperGraph invariants hold: the node
map and incidence map have the same key set, every registered edge is
in each member's incidence set, and every incidence entry is a
registered edge containing the node. `clear` never completes (it
raises `AttributeError`), but the state it leaves behind is the empty
graph, which satisfies the invariants as well. -/
theorem claim_C3 (g : HG) (node : Node) (kwds : Attrs) (a : EdgeArg)
    (r : EdgeRef) (n2 : Node) (hwf : WF g) (hinv : Inv g)
    (hre : (remove_edge g r).2 = none)
    (hrn : (remove_node g n2).2 = none) :
    Inv (add_node g node kwds).1 ∧ Inv (add_edge g a).1 ∧
    Inv (remove_edge g r).1 ∧ Inv (remove_node g n2).1 ∧
    Inv (clear g).1 :=
  ⟨(add_node_preserves g node kwds hwf hinv).2,
   (add_edge_preserves g a hwf hinv).2,
   (remove_edge_preserves g r hwf hinv hre).2,
   (remove_node_preserves g n2 hwf hinv hrn).2,
   ⟨fun x hx => absurd hx (List.not_mem_nil x),
    fun x hx => absurd hx (List.not_mem_nil x),
    fun p hp => absurd hp (List.not_mem_nil p),
    fun p hp => absurd hp (List.not_mem_nil p)⟩⟩

/-- Witness for claim C3 on the graph with the single edge `(2,3)`:
all five mutations, with the removals targeting the present edge and a
present node, preserve the invariants. -/
theorem claim_C3_witness :
    WF pairGraph ∧ Inv pairGraph ∧
    (remove_edge pairGraph (.raw (.ordered [2, 3]))).2 = none ∧
    (remove_node pairGraph 2).2 = none ∧
    (Inv (add_node pairGraph 5 []).1 ∧
      Inv (add_edge pairGraph (.raw (.ordered [1, 2]) none [])).1 ∧
      Inv (remove_edge pairGraph (.raw (.ordered [2, 3]))).1 ∧
      Inv (remove_node pairGraph 2).1 ∧
      Inv (clear pairGraph).1) :=
  ⟨⟨by decide, by decide, by decide, by decide⟩,
   ⟨by decide, by decide, by decide, by decide⟩,
   by decide, by decide,
   claim_C3 pairGraph 5 [] (.raw (.ordered [1, 2]) none [])
     (.raw (.ordered [2, 3])) 2
     ⟨by decide, by decide, by decide, by decide⟩
     ⟨by decide, by decide, by decide, by decide⟩
     (by decide) (by decide)⟩

/-! ### Claim C6: the reference model -/

theorem readCell_append_lt (h h2 : Heap) (r : Ref) (hr : r < h.length) :
    readCell (h ++ h2) r = readCell h r := by
  induction h generalizing r with
  | nil => simp at hr
  | cons a t ih =>
    cases r with
    | zero => rfl
    | succ r2 =>
      have h2r : r2 < t.length := Nat.lt_of_succ_lt_succ hr
      show readCell (t ++ h2) r2 = readCell t r2
      exact ih r2 h2r

theorem readCell_append_self (h : Heap) (c : Attrs) :
    readCell (h ++ [c]) h.length = c := by
  induction h with
  | nil => rfl
  | cons a t ih => exact ih

theorem writeCell_readCell_self (h : Heap) (r : Ref) :
    writeCell h r (readCell h r) = h := by
  induction h generalizing r with
  | nil => rfl
  | cons a t ih =>
    cases r with
    | zero => rfl
    | succ r2 =>
      show a :: writeCell t r2 (readCell t r2) = a :: t
      rw [ih r2]

section SelfAssign

variable {κ β : Type} [DecidableEq κ]

theorem assignD_self_of_mem {d : List (κ × β)} (hd : (keysD d).Nodup)
    {p : κ × β} (hp : p ∈ d) : assignD d p.1 p.2 = d := by
  induction d with
  | nil => simp at hp
  | cons q t ih =>
    obtain ⟨k, v⟩ := q
    rw [keysD_cons, List.nodup_cons] at hd
    rcases List.mem_cons.mp hp with rfl | hp2
    · simp [assignD]
    · have hk : k ≠ p.1 := by
        intro hc
        have hx := mem_keysD_of_mem hp2
        exact hd.1 (by rw [hc]; exact hx)
      simp only [assignD, if_neg hk]
      rw [ih hd.2 hp2]

theorem foldl_assignD_self {d : List (κ × β)} (hd : (keysD d).Nodup) :
    ∀ l : List (κ × β), (∀ p ∈ l, p ∈ d) →
      l.foldl (fun acc p => assignD acc p.1 p.2) d = d := by
  intro l
  induction l with
  | nil => intro _; rfl
  | cons p t ih =>
    intro h
    rw [List.foldl_cons,
      assignD_self_of_mem hd (h p (List.mem_cons_self p t))]
    exact ih (fun q hq => h q (List.mem_cons_of_mem p hq))

end SelfAssign

/-- `d.update(d)` is the identity on a duplicate-free dict. -/
theorem dictUpdate_self (d : Attrs) (hd : (keysD d).Nodup) :
    dictUpdate d d = d :=
  foldl_assignD_self hd d (fun p hp => hp)

/-- The member loop of `add_edge`, when every member is already a
registered node, completes without touching the heap, the node map or
the edge map. -/
theorem addEdgeMembersR_present (e : EdgeId) :
    ∀ (M : List Node) (h : Heap) (g : RGraph),
    (∀ n ∈ M, n ∈ keysD g.node_data) →
    (keysD g.node_incidence = keysD g.node_data) →
    (addEdgeMembersR e (h, g) M).2 = none ∧
    Prod.fst (addEdgeMembersR e (h, g) M).1 = h ∧
    (Prod.snd (addEdgeMembersR e (h, g) M).1).node_data = g.node_data ∧
    (Prod.snd (addEdgeMembersR e (h, g) M).1).edge_data = g.edge_data ∧
    keysD (Prod.snd (addEdgeMembersR e (h, g) M).1).node_incidence =
      keysD g.node_data := by
  intro M
  induction M with
  | nil =>
    intro h g hmem hkeys
    exact ⟨rfl, rfl, rfl, rfl, hkeys⟩
  | cons n rest ih =>
    intro h g hmem hkeys
    have hn : n ∈ keysD g.node_data := hmem n (by simp)
    have hc : containsD g.node_data n = true :=
      (containsD_iff_mem_keysD _ _).mpr hn
    have hni : n ∈ keysD g.node_incidence := by
      rw [hkeys]
      exact hn
    cases hL : lookupD g.node_incidence n with
    | none => exact absurd hni ((lookupD_eq_none_iff _ _).mp hL)
    | some L =>
      have hcni : containsD g.node_incidence n = true :=
        (containsD_iff_mem_keysD _ _).mpr hni
      have hstep : addEdgeMembersR e (h, g) (n :: rest) =
          addEdgeMembersR e ((h, { g with node_incidence := assignD g.node_incidence n (setAdd L e) }) : Heap × RGraph) rest := by
        simp [addEdgeMembersR, hc, hL]
      rw [hstep]
      obtain ⟨c1, c2, c3, c4, c5⟩ := ih h
        ({ g with node_incidence := assignD g.node_incidence n (setAdd L e) } : RGraph)
        (fun m hm => hmem m (by simp [hm]))
        (by rw [show ({ g with node_incidence := assignD g.node_incidence n (setAdd L e) } : RGraph).node_incidence = assignD g.node_incidence n (setAdd L e) from rfl, keysD_assignD_of_contains _ _ _ hcni]; exact hkeys)
      exact ⟨c1, c2, c3, c4, c5⟩

/-- The node-replay loop of `copy`: fresh cells with copied contents,
old cells untouched. -/
theorem copyNodes_spec :
    ∀ (D : List (Node × Ref)) (h : Heap) (g2 : RGraph),
    (keysD D).Nodup →
    (∀ p ∈ D, Prod.fst p ∉ keysD g2.node_data) →
    (∀ p ∈ D, Prod.snd p < h.length) →
    (keysD g2.node_incidence = keysD g2.node_data) →
    h.length ≤ (copyNodes h g2 D).1.length ∧
    (∀ r, r < h.length → readCell (copyNodes h g2 D).1 r = readCell h r) ∧
    (copyNodes h g2 D).2.edge_data = g2.edge_data ∧
    keysD (copyNodes h g2 D).2.node_data =
      keysD g2.node_data ++ keysD D ∧
    keysD (copyNodes h g2 D).2.node_incidence =
      keysD (copyNodes h g2 D).2.node_data ∧
    (∀ m, m ∉ keysD D →
      lookupD (copyNodes h g2 D).2.node_data m = lookupD g2.node_data m) ∧
    (∀ p ∈ D, ∃ r2,
      lookupD (copyNodes h g2 D).2.node_data (Prod.fst p) = some r2 ∧
      h.length ≤ r2 ∧
      readCell (copyNodes h g2 D).1 r2 = readCell h (Prod.snd p)) := by
  intro D
  induction D with
  | nil =>
    intro h g2 _ _ _ hinc
    refine ⟨Nat.le_refl _, fun r _ => rfl, rfl, by simp [copyNodes], hinc,
      fun m _ => rfl, fun p hp => absurd hp (by simp)⟩
  | cons q rest ih =>
    obtain ⟨n, r⟩ := q
    intro h g2 hDnd hdisj hrefs hinc
    have hnmem : n ∉ keysD g2.node_data := hdisj (n, r) (by simp)
    have hlookn : lookupD g2.node_data n = none :=
      (lookupD_eq_none_iff _ _).mpr hnmem
    have hnotrest : n ∉ keysD rest := by
      rw [keysD_cons] at hDnd
      exact (List.nodup_cons.mp hDnd).1
    have hstep : copyNodes h g2 ((n, r) :: rest) =
        copyNodes (h ++ [readCell h r]) ({ g2 with node_data := g2.node_data ++ [(n, h.length)], node_incidence := g2.node_incidence ++ [(n, [])] } : RGraph) rest := by
      simp [copyNodes, add_nodeR, hlookn]
    have hrlt : r < h.length := hrefs (n, r) (by simp)
    have hndkeys2 : keysD (({ g2 with node_data := g2.node_data ++ [(n, h.length)], node_incidence := g2.node_incidence ++ [(n, [])] } : RGraph)).node_data = keysD g2.node_data ++ [n] := by
      rw [show (({ g2 with node_data := g2.node_data ++ [(n, h.length)], node_incidence := g2.node_incidence ++ [(n, [])] } : RGraph)).node_data = g2.node_data ++ [(n, h.length)] from rfl, keysD_append]
      rfl
    obtain ⟨c1, c2, c3, c4, c5, c6, c7⟩ := ih (h ++ [readCell h r])
      ({ g2 with node_data := g2.node_data ++ [(n, h.length)], node_incidence := g2.node_incidence ++ [(n, [])] } : RGraph)
      (by rw [keysD_cons] at hDnd; exact (List.nodup_cons.mp hDnd).2)
      (by
        intro p hp
        rw [hndkeys2]
        intro hcq
        rcases List.mem_append.mp hcq with hm | hm
        · exact hdisj p (by simp [hp]) hm
        · have hpn : Prod.fst p = n := by simpa using hm
          exact hnotrest (hpn ▸ mem_keysD_of_mem hp))
      (by
        intro p hp
        have hlt := hrefs p (by simp [hp])
        exact Nat.lt_of_lt_of_le hlt (by simp))
      (by
        rw [hndkeys2]
        rw [show (({ g2 with node_data := g2.node_data ++ [(n, h.length)], node_incidence := g2.node_incidence ++ [(n, [])] } : RGraph)).node_incidence = g2.node_incidence ++ [(n, [])] from rfl, keysD_append]
        rw [hinc]
        rfl)
    have hlen1 : h.length < (h ++ [readCell h r]).length := by simp
    refine ⟨?_, ?_, ?_, ?_, ?_, ?_, ?_⟩
    · rw [hstep]
      exact Nat.le_trans (Nat.le_of_lt hlen1) c1
    · intro r0 hr0
      rw [hstep, c2 r0 (Nat.lt_trans hr0 hlen1)]
      exact readCell_append_lt h _ r0 hr0
    · rw [hstep]
      exact c3
    · rw [hstep, c4, hndkeys2]
      simp
    · rw [hstep]
      exact c5
    · intro m hm
      have hmn : m ≠ n := by
        intro hcq
        exact hm (by simp [hcq])
      have hmr : m ∉ keysD rest := by
        intro hcq
        exact hm (by simp [hcq])
      rw [hstep, c6 m hmr]
      rw [show (({ g2 with node_data := g2.node_data ++ [(n, h.length)], node_incidence := g2.node_incidence ++ [(n, [])] } : RGraph)).node_data = g2.node_data ++ [(n, h.length)] from rfl]
      exact lookupD_append_single_ne _ _ _ _ (fun hcq => hmn hcq.symm)
    · intro p hp
      rcases List.mem_cons.mp hp with rfl | hp2
      · refine ⟨h.length, ?_, Nat.le_refl _, ?_⟩
        · rw [hstep, c6 n hnotrest]
          rw [show (({ g2 with node_data := g2.node_data ++ [(n, h.length)], node_incidence := g2.node_incidence ++ [(n, [])] } : RGraph)).node_data = g2.node_data ++ [(n, h.length)] from rfl]
          rw [lookupD_append_right _ _ _ hlookn]
          simp
        · rw [hstep, c2 h.length hlen1]
          exact readCell_append_self h (readCell h r)
      · obtain ⟨r2, d1, d2, d3⟩ := c7 p hp2
        refine ⟨r2, ?_, ?_, ?_⟩
        · rw [hstep]
          exact d1
        · exact Nat.le_trans (Nat.le_of_lt hlen1) d2
        · rw [hstep, d3]
          exact readCell_append_lt h _ _ (hrefs p (by simp [hp2]))

/-- The edge-replay loop of `copy`: nothing on the heap changes (the
self-update `e.data.update(**edata)` is the identity on a
duplicate-free dict), the node map is untouched, and the original
entries — members, discriminators AND data references — are appended
verbatim to the clone's edge map. -/
theorem copyEdges_spec :
    ∀ (E : List (EdgeId × Ref)) (h : Heap) (g2 : RGraph),
    (keysD E).Nodup →
    (∀ p ∈ E, Prod.fst p ∉ keysD g2.edge_data) →
    (∀ p ∈ E, (keysD (readCell h (Prod.snd p))).Nodup) →
    (∀ p ∈ E, ∀ n ∈ EdgeId.members (Prod.fst p), n ∈ keysD g2.node_data) →
    (keysD g2.node_incidence = keysD g2.node_data) →
    (copyEdges h g2 E).2 = none ∧
    Prod.fst (copyEdges h g2 E).1 = h ∧
    (Prod.snd (copyEdges h g2 E).1).node_data = g2.node_data ∧
    (Prod.snd (copyEdges h g2 E).1).edge_data = g2.edge_data ++ E := by
  intro E
  induction E with
  | nil =>
    intro h g2 _ _ _ _ _
    exact ⟨rfl, rfl, rfl, by simp [copyEdges]⟩
  | cons q rest ih =>
    obtain ⟨e, r⟩ := q
    intro h g2 hEnd hdisj hattr hmem hinc
    have hemem : e ∉ keysD g2.edge_data := hdisj (e, r) (by simp)
    have hlooke : lookupD g2.edge_data e = none :=
      (lookupD_eq_none_iff _ _).mpr hemem
    have hnotrest : e ∉ keysD rest := by
      rw [keysD_cons] at hEnd
      exact (List.nodup_cons.mp hEnd).1
    have hattr0 : (keysD (readCell h r)).Nodup := hattr (e, r) (by simp)
    have hh1 : writeCell h r (dictUpdate (readCell h r) (readCell h r)) =
        h := by
      rw [dictUpdate_self _ hattr0, writeCell_readCell_self]
    have hpre : add_edgeR_pre h g2 ⟨e, r⟩ (readCell h r) =
        addEdgeMembersR e ((h, { g2 with edge_data := g2.edge_data ++ [(e, r)] }) : Heap × RGraph) (EdgeId.members e) := by
      simp only [add_edgeR_pre, hlooke]
      rw [hh1]
    obtain ⟨m1, m2, m3, m4, m5⟩ := addEdgeMembersR_present e
      (EdgeId.members e) h
      ({ g2 with edge_data := g2.edge_data ++ [(e, r)] } : RGraph)
      (fun n hn => hmem (e, r) (by simp) n hn) hinc
    rcases hres : addEdgeMembersR e
        ((h, { g2 with edge_data := g2.edge_data ++ [(e, r)] }) :
          Heap × RGraph) (EdgeId.members e) with ⟨s, errX⟩
    rw [hres] at m1 m2 m3 m4 m5
    simp only at m1 m2 m3 m4 m5
    cases errX with
    | some ev => exact absurd m1 (by simp)
    | none =>
      have hstepC : copyEdges h g2 ((e, r) :: rest) =
          copyEdges s.1 s.2 rest := by
        show (match add_edgeR_pre h g2 ⟨e, r⟩ (readCell h r) with
          | (s, none) => copyEdges s.1 s.2 rest
          | (s, some err) => (s, some err)) = copyEdges s.1 s.2 rest
        rw [hpre, hres]
      obtain ⟨k1, k2, k3, k4⟩ := ih s.1 s.2
        (by rw [keysD_cons] at hEnd; exact (List.nodup_cons.mp hEnd).2)
        (by
          intro p hp
          rw [m4]
          rw [show keysD (({ g2 with edge_data := g2.edge_data ++ [(e, r)] } : RGraph)).edge_data = keysD g2.edge_data ++ [e] from by rw [show (({ g2 with edge_data := g2.edge_data ++ [(e, r)] } : RGraph)).edge_data = g2.edge_data ++ [(e, r)] from rfl, keysD_append]; rfl]
          intro hcq
          rcases List.mem_append.mp hcq with hm | hm
          · exact hdisj p (by simp [hp]) hm
          · have hpe : Prod.fst p = e := by simpa using hm
            exact hnotrest (hpe ▸ mem_keysD_of_mem hp))
        (by
          intro p hp
          rw [m2]
          exact hattr p (by simp [hp]))
        (by
          intro p hp n hn
          rw [m3]
          exact hmem p (by simp [hp]) n hn)
        (by rw [m5, m3])
      rw [hstepC]
      refine ⟨k1, ?_, ?_, ?_⟩
      · rw [k2, m2]
      · rw [k3, m3]
      · rw [k4, m4]
        simp

/-- Claim C6, as stated, is false: after `G.add_edge((1,2), a=1)` and
`H = G.copy()`, setting attribute `a` of edge `(1,2)` to 99 through
`H` changes `G`'s stored attribute to 99 as well — `copy` replays
`add_edge` with the original `Edge` objects, and `add_edge` registers
the passed object's own `EdgeData` (`self.edge_data[e] = e.data`), so
the clone shares every edge-attribute container with the original. -/
theorem claim_C6_counterexample :
    getEdgeAttr c6Orig.1 c6Orig.2 ⟨.ordered [1, 2], none⟩ "a" = some 1 ∧
    c6Copy.2 = none ∧
    c6Mut.2 = none ∧
    getEdgeAttr c6Mut.1 c6Orig.2 ⟨.ordered [1, 2], none⟩ "a" =
      some 99 := by
  decide

/-- Claim C6 amended: on a well-formed state, `copy` completes and
leaves every original heap cell untouched; the clone has the same node
key set, and each node's attributes sit in a freshly allocated cell
(at or above the old heap top, hence distinct from every original
reference) with contents equal to the original's — node attributes are
independent. The clone's edge map, however, is literally the
original's: same identities and the same data references, so edge
attributes are shared, and mutating them through the copy mutates the
original (and vice versa). -/
theorem claim_C6_amended (h : Heap) (g : RGraph) (hwf : WFr h g) :
    (copyR h g).2 = none ∧
    (∀ r, r < h.length →
      readCell (Prod.fst (copyR h g).1) r = readCell h r) ∧
    keysD (Prod.snd (copyR h g).1).node_data = keysD g.node_data ∧
    (∀ p ∈ g.node_data, ∃ r2,
      lookupD (Prod.snd (copyR h g).1).node_data (Prod.fst p) =
        some r2 ∧
      h.length ≤ r2 ∧
      readCell (Prod.fst (copyR h g).1) r2 = readCell h (Prod.snd p)) ∧
    (Prod.snd (copyR h g).1).edge_data = g.edge_data := by
  rcases hphase1 : copyNodes h (⟨[], [], []⟩ : RGraph) g.node_data
    with ⟨h1, g2⟩
  have hcopy : copyR h g = copyEdges h1 g2 g.edge_data := by
    show (match copyNodes h (⟨[], [], []⟩ : RGraph) g.node_data with
      | (h1, g2) => copyEdges h1 g2 g.edge_data) = copyEdges h1 g2 g.edge_data
    rw [hphase1]
  obtain ⟨n1, n2, n3, n4, n5, n6, n7⟩ := copyNodes_spec g.node_data h
    (⟨[], [], []⟩ : RGraph) hwf.nd_nodup
    (fun p _ => by simp [keysD]) hwf.nd_refs rfl
  rw [hphase1] at n1 n2 n3 n4 n5 n6 n7
  simp only at n1 n2 n3 n4 n5 n6 n7
  have n4' : keysD g2.node_data = keysD g.node_data := by
    rw [n4]
    simp [keysD]
  obtain ⟨e1, e2, e3, e4⟩ := copyEdges_spec g.edge_data h1 g2
    hwf.ed_nodup
    (by
      intro p hp
      rw [n3]
      simp [keysD])
    (by
      intro p hp
      rw [n2 (Prod.snd p) (hwf.ed_refs p hp)]
      exact hwf.ed_attrs p hp)
    (by
      intro p hp n hn
      rw [n4']
      exact hwf.members_nodes p hp n hn)
    (by rw [n5, n4'])
  refine ⟨?_, ?_, ?_, ?_, ?_⟩
  · rw [hcopy]
    exact e1
  · intro r hr
    rw [hcopy, show Prod.fst (copyEdges h1 g2 g.edge_data).1 = h1 from e2]
    exact n2 r hr
  · rw [hcopy, show (Prod.snd (copyEdges h1 g2 g.edge_data).1).node_data =
      g2.node_data from e3]
    exact n4'
  · intro p hp
    obtain ⟨r2, d1, d2, d3⟩ := n7 p hp
    refine ⟨r2, ?_, d2, ?_⟩
    · rw [hcopy, show (Prod.snd (copyEdges h1 g2 g.edge_data).1).node_data =
        g2.node_data from e3]
      exact d1
    · rw [hcopy, show Prod.fst (copyEdges h1 g2 g.edge_data).1 = h1 from e2]
      exact d3
  · rw [hcopy, e4, n3]
    simp

/-- Witness for the amended claim C6 at the one-edge state: the copy
completes, and the clone's edge map literally equals the original's
(shared data references), while node 1's attributes live in a fresh
cell at or above the old heap top. -/
theorem claim_C6_amended_witness :
    WFr c6Orig.1 c6Orig.2 ∧
    (copyR c6Orig.1 c6Orig.2).2 = none ∧
    (Prod.snd (copyR c6Orig.1 c6Orig.2).1).edge_data =
      c6Orig.2.edge_data ∧
    (∃ r2, lookupD (Prod.snd (copyR c6Orig.1 c6Orig.2).1).node_data 1 =
      some r2 ∧ c6Orig.1.length ≤ r2 ∧
      readCell (Prod.fst (copyR c6Orig.1 c6Orig.2).1) r2 =
        readCell c6Orig.1 1) := by
  have hwf : WFr c6Orig.1 c6Orig.2 :=
    ⟨by decide, by decide, by decide, by decide, by decide, by decide⟩
  have h := claim_C6_amended c6Orig.1 c6Orig.2 hwf
  refine ⟨hwf, h.1, h.2.2.2.2, ?_⟩
  have h4 := h.2.2.2.1 (1, 1) (by decide)
  exact h4

end HyperGraphModel
